import Mathlib

/-!
Verification development for the repository's two Python source files:

* `torch_xla/amp/syncfree/adam.py` — a syncfree Adam optimizer that fuses a
  scalar "found_inf" gradient-skip flag into the Adam update;
* `hopper/test/scripts/launch_benchmarks.py` — a benchmark sweep driver whose
  only nontrivial logic is the extraction of a latency figure from captured
  process output.

Tensors are modelled as lists of scalars drawn from a linear ordered field
`α`, with every torch operation translated elementwise.  The only primitive
of the Python code that has no exact field counterpart is the square root
(tensor `.sqrt()` and scalar `math.sqrt`); it is modelled as an explicit
function argument `sq : α → α`, so theorems hold for an arbitrary `sq` or
assume only `0 ≤ sq x`, which the real square root satisfies.  Witnesses
instantiate `α := ℚ`.
-/

/-- A gradient tensor: its data and its sparsity flag (`Tensor.is_sparse`). -/
structure Grad (α : Type) where
  data : List α
  sparse : Bool
  deriving DecidableEq

/-- The lazily created per-parameter state record (`self.state[p]`),
cf. adam.py lines 95–104: integer step count, first and second moment
tensors, and the max second moment tensor present exactly when the group
had `amsgrad` set at creation time. -/
structure ParamState (α : Type) where
  step : Nat
  exp_avg : List α
  exp_avg_sq : List α
  max_exp_avg_sq : Option (List α)
  deriving DecidableEq

/-- A parameter together with its attached gradient (`p.grad`, `None` when
absent) and the optimizer's state record for it (`self.state[p]`, `none`
before lazy initialization).  Keying state by parameter identity is modelled
by storing the record next to the parameter. -/
structure ParamEntry (α : Type) where
  value : List α
  grad : Option (Grad α)
  st : Option (ParamState α)
  deriving DecidableEq

/-- Hyperparameters of one parameter group (`group['lr']` etc.). -/
structure Hyper (α : Type) where
  lr : α
  beta1 : α
  beta2 : α
  eps : α
  weight_decay : α
  amsgrad : Bool
  deriving DecidableEq

/-- One parameter group: shared hyperparameters plus its parameters. -/
structure ParamGroup (α : Type) where
  hyper : Hyper α
  params : List (ParamEntry α)
  deriving DecidableEq

/-- The `found_inf` skip-signal tensor: a shape and a scalar boolean value
(Python truthiness of the scalar tensor). -/
structure FoundInf where
  shape : List Nat
  value : Bool
  deriving DecidableEq

/-- The Python exceptions raised by the optimizer code: `ValueError` from the
constructor and the scalar-shape check, `RuntimeError` for sparse gradients,
`AttributeError` from dereferencing a `None` skip-signal. -/
inductive PyError where
  | valueError
  | runtimeError
  | attributeError
  deriving DecidableEq

/-- Elementwise combination of three equal-shape tensors. -/
def zipWith3 {α β γ δ : Type} (f : α → β → γ → δ) : List α → List β → List γ → List δ
  | x :: xs, y :: ys, z :: zs => f x y z :: zipWith3 f xs ys zs
  | _, _, _ => []

section OptimizerDefs

variable {α : Type} [LinearOrderedField α]

/-- `t.add(u, alpha=a)` / `t.add_(u, alpha=a)`: elementwise `t + a • u`. -/
def torchAdd (t u : List α) (alpha : α) : List α :=
  List.zipWith (fun x y => x + alpha * y) t u

/-- `t.mul_(s)` for a scalar `s`. -/
def torchMulScalar (t : List α) (s : α) : List α :=
  t.map (fun x => x * s)

/-- `t.addcmul_(u, v, value=a)`: elementwise `t + a * (u * v)`. -/
def torchAddcmul (t u v : List α) (value : α) : List α :=
  zipWith3 (fun x y z => x + value * (y * z)) t u v

/-- `t.addcdiv_(u, v, value=a)`: elementwise `t + a * (u / v)`. -/
def torchAddcdiv (t u v : List α) (value : α) : List α :=
  zipWith3 (fun x y z => x + value * (y / z)) t u v

/-- `torch.maximum(t, u)` elementwise. -/
def torchMaximum (t u : List α) : List α :=
  List.zipWith max t u

/-- `torch.zeros_like(t)`. -/
def zerosLike (t : List α) : List α :=
  t.map (fun _ => 0)

/-- `torch.ones_like(t)`. -/
def onesLike (t : List α) : List α :=
  t.map (fun _ => 1)

/-- `t.conj()`; scalars are modelled as real, where conjugation is the
identity. -/
def torchConj (t : List α) : List α := t

/-- The loop body of `Adam.adam_step_py` (adam.py lines 178–216) for one
parameter, given the already recorded (post-increment) step count.  `sq` is
the square root.  Returns the updated parameter, first and second moments,
and max second moment.  The leftover `pdb.set_trace()` on line 177 is a
debugging hook with no effect on optimizer state and is not modelled. -/
def adam_step_py_param (sq : α → α) (h : Hyper α) (found_inf : Bool) (step : Nat)
    (param grad exp_avg exp_avg_sq : List α) (max_exp_avg_sq : Option (List α)) :
    List α × List α × List α × Option (List α) :=
  let bias_correction1 : α := 1 - h.beta1 ^ step
  let bias_correction2 : α := 1 - h.beta2 ^ step
  -- lines 186–187: torch.where(found_inf, grad, grad.add(param, alpha=weight_decay))
  let grad1 := if h.weight_decay ≠ 0 then
      (if found_inf then grad else torchAdd grad param h.weight_decay)
    else grad
  -- lines 190–191: exp_avg.mul_(beta1).add_(grad, alpha=1-beta1)
  let exp_avg1 := if found_inf then exp_avg
    else torchAdd (torchMulScalar exp_avg h.beta1) grad1 (1 - h.beta1)
  -- lines 192–193: exp_avg_sq.mul_(beta2).addcmul_(grad, grad.conj(), value=1-beta2)
  let exp_avg_sq1 := if found_inf then exp_avg_sq
    else torchAddcmul (torchMulScalar exp_avg_sq h.beta2) grad1 (torchConj grad1) (1 - h.beta2)
  -- lines 194–206: amsgrad max update and denominator selection
  let mxdenom : Option (List α) × List α :=
    if h.amsgrad then
      let mx := torchMaximum (max_exp_avg_sq.getD []) exp_avg_sq1
      (some mx,
        if step ≠ 0 then (((mx.map sq).map (fun x => x / sq bias_correction2)).map (fun x => x + h.eps))
        else onesLike mx)
    else
      (max_exp_avg_sq,
        if step ≠ 0 then (((exp_avg_sq1.map sq).map (fun x => x / sq bias_correction2)).map (fun x => x + h.eps))
        else onesLike exp_avg_sq1)
  -- lines 208–211
  let step_size : α := if step ≠ 0 then h.lr / bias_correction1 else 0
  -- lines 213–216
  let param1 := if ¬ found_inf then torchAddcdiv param exp_avg1 mxdenom.2 (-step_size)
    else torchAdd param (zerosLike exp_avg1) 1
  (param1, exp_avg1, exp_avg_sq1, mxdenom.1)

/-- Whether a parameter has a sparse gradient attached
(`p.grad is not None and p.grad.is_sparse`). -/
def isSparse (p : ParamEntry α) : Bool :=
  (p.grad.map (fun g => g.sparse)).getD false

/-- Lazy state initialization, adam.py lines 95–104. -/
def lazyInit (amsgrad : Bool) (p : ParamEntry α) : ParamState α :=
  { step := 0
    exp_avg := zerosLike p.value
    exp_avg_sq := zerosLike p.value
    max_exp_avg_sq := if amsgrad then some (zerosLike p.value) else none }

/-- Effect of one iteration of the gather loop of `Adam.step` (adam.py lines
82–116) on a single entry: parameters without a gradient are skipped; for
the rest, state is created if absent and the step count is incremented
exactly when the skip-signal is unset (lines 112–114). -/
def gatherEntry (amsgrad found_inf : Bool) (p : ParamEntry α) : ParamEntry α :=
  match p.grad with
  | none => p
  | some _ =>
    let s := p.st.getD (lazyInit amsgrad p)
    { p with st := some { s with step := if ¬ found_inf then s.step + 1 else s.step } }

/-- The gather loop of `Adam.step` over a group's parameter list.  On a
sparse gradient it raises `RuntimeError` (line 86); the error payload is the
parameter list as mutated so far (entries already visited have been gathered,
the sparse entry and the rest are untouched). -/
def gather (amsgrad found_inf : Bool) : List (ParamEntry α) →
    Except (List (ParamEntry α)) (List (ParamEntry α))
  | [] => .ok []
  | p :: ps =>
    if isSparse p then .error (p :: ps)
    else
      match gather amsgrad found_inf ps with
      | .ok ps' => .ok (gatherEntry amsgrad found_inf p :: ps')
      | .error ps' => .error (gatherEntry amsgrad found_inf p :: ps')

/-- Effect of `Adam.adam_step_py` on one entry.  The Python function iterates
over the parallel lists collected by the gather loop, which contain exactly
the entries with a gradient (in order), each with state present; in-place
tensor mutation writes the results back through aliasing, modelled here by
rebuilding the entry. -/
def adam_step_py_entry (sq : α → α) (h : Hyper α) (found_inf : Bool)
    (p : ParamEntry α) : ParamEntry α :=
  match p.grad, p.st with
  | some g, some s =>
    let r := adam_step_py_param sq h found_inf s.step p.value g.data
        s.exp_avg s.exp_avg_sq s.max_exp_avg_sq
    { value := r.1
      grad := p.grad
      st := some { step := s.step, exp_avg := r.2.1, exp_avg_sq := r.2.2.1,
                   max_exp_avg_sq := r.2.2.2 } }
  | _, _ => p

/-- `Adam.adam_step_py` (adam.py lines 170–216) over a gathered group. -/
def adam_step_py (sq : α → α) (h : Hyper α) (found_inf : Bool)
    (ps : List (ParamEntry α)) : List (ParamEntry α) :=
  ps.map (adam_step_py_entry sq h found_inf)

/-- Processing of a single parameter group inside `Adam.step`: the gather
loop followed (on success) by `adam_step_py` (lines 73–143). -/
def stepGroup (sq : α → α) (found_inf : Bool) (g : ParamGroup α) :
    Except (ParamGroup α) (ParamGroup α) :=
  match gather g.hyper.amsgrad found_inf g.params with
  | .error ps => .error { g with params := ps }
  | .ok ps => .ok { g with params := adam_step_py sq g.hyper found_inf ps }

/-- The loop of `Adam.step` over all parameter groups.  A `RuntimeError` in
one group aborts the call; groups already processed keep their updates and
later groups are untouched. -/
def stepGroups (sq : α → α) (found_inf : Bool) :
    List (ParamGroup α) → Except PyError Unit × List (ParamGroup α)
  | [] => (.ok (), [])
  | g :: gs =>
    match stepGroup sq found_inf g with
    | .error g' => (.error .runtimeError, g' :: gs)
    | .ok g' =>
      let r := stepGroups sq found_inf gs
      (r.1, g' :: r.2)

/-- `Adam.step` (adam.py lines 59–146).  `found_inf` defaults to `None` in
the source; passing `none` here models omitting it, in which case
`found_inf.shape` dereferences `None` and raises `AttributeError` (line 67)
before anything else happens.  A non-scalar shape raises `ValueError`
(lines 67–68) before any group is visited.  The `closure` argument is not
modelled: every claim concerns `closure=None`, and the closure is only
evaluated for its returned loss.  The result is the raised exception (if
any) together with the optimizer state as mutated when the call returns. -/
def Adam.step (sq : α → α) (found_inf : Option FoundInf) (groups : List (ParamGroup α)) :
    Except PyError Unit × List (ParamGroup α) :=
  match found_inf with
  | none => (.error .attributeError, groups)
  | some fi =>
    if fi.shape.length ≠ 0 then (.error .valueError, groups)
    else stepGroups sq fi.value groups

/-- `n` consecutive calls of `Adam.step` with the same skip-signal. -/
def stepN (sq : α → α) (found_inf : Option FoundInf) :
    Nat → List (ParamGroup α) → List (ParamGroup α)
  | 0, gs => gs
  | n + 1, gs => stepN sq found_inf n (Adam.step sq found_inf gs).2

/-- A sequence of `Adam.step` calls with per-call skip-signals. -/
def stepSeq (sq : α → α) (fis : List (Option FoundInf)) (gs : List (ParamGroup α)) :
    List (ParamGroup α) :=
  fis.foldl (fun acc fi => (Adam.step sq fi acc).2) gs

/-- `Adam.__init__` (adam.py lines 38–52): hyperparameter validation and
construction of the parameter groups.  All range checks happen here, before
the object exists; an out-of-range value raises `ValueError`. -/
def Adam.init (params : List (List (ParamEntry α))) (lr : α) (betas : α × α)
    (eps weight_decay : α) (amsgrad : Bool) : Except PyError (List (ParamGroup α)) :=
  if ¬ (0 ≤ lr) then .error .valueError
  else if ¬ (0 ≤ eps) then .error .valueError
  else if ¬ (0 ≤ betas.1 ∧ betas.1 < 1) then .error .valueError
  else if ¬ (0 ≤ betas.2 ∧ betas.2 < 1) then .error .valueError
  else if ¬ (0 ≤ weight_decay) then .error .valueError
  else .ok (params.map (fun ps =>
    { hyper := { lr := lr, beta1 := betas.1, beta2 := betas.2, eps := eps,
                 weight_decay := weight_decay, amsgrad := amsgrad }
      params := ps }))

/-- The error-free effect of `Adam.step` on one group (gather of every entry
followed by `adam_step_py`). -/
def groupFull (sq : α → α) (found_inf : Bool) (g : ParamGroup α) : ParamGroup α :=
  { g with params :=
      (adam_step_py sq g.hyper found_inf
        (g.params.map (gatherEntry g.hyper.amsgrad found_inf))) }

/-- The error-free effect of `Adam.step` on the whole optimizer state. -/
def fullStep (sq : α → α) (found_inf : Bool) (gs : List (ParamGroup α)) : List (ParamGroup α) :=
  gs.map (groupFull sq found_inf)

/-- No parameter of any group has a sparse gradient. -/
def noSparse (gs : List (ParamGroup α)) : Bool :=
  gs.all (fun g => g.params.all (fun p => ! isSparse p))

/-- The entry at group `i`, position `j`. -/
def entryAt (gs : List (ParamGroup α)) (i j : Nat) : Option (ParamEntry α) :=
  gs[i]?.bind (fun g => g.params[j]?)

/-- The step count recorded for an entry (`0` before lazy initialization). -/
def entryCnt (p : ParamEntry α) : Nat :=
  (p.st.map (fun s => s.step)).getD 0

/-- The step count at group `i`, position `j`. -/
def cntAt (gs : List (ParamGroup α)) (i j : Nat) : Nat :=
  ((entryAt gs i j).map entryCnt).getD 0

/-- The parameter value at group `i`, position `j`. -/
def valAt (gs : List (ParamGroup α)) (i j : Nat) : Option (List α) :=
  (entryAt gs i j).map (fun p => p.value)

/-- The moment estimates at group `i`, position `j`, a missing state record
reading as the zero moments lazy initialization would create. -/
def momAt (gs : List (ParamGroup α)) (i j : Nat) : Option (List α × List α) :=
  (entryAt gs i j).map (fun p =>
    ((p.st.map (fun s => (s.exp_avg, s.exp_avg_sq))).getD
      (zerosLike p.value, zerosLike p.value)))

/-- Whether the entry at group `i`, position `j` has a gradient attached. -/
def hasGradAt (gs : List (ParamGroup α)) (i j : Nat) : Bool :=
  ((entryAt gs i j).map (fun p => p.grad.isSome)).getD false

/-- The observable data of an entry named by claims C3/C4: parameter value,
step count, first and second moment estimates; a missing state record reads
as step `0` with zero moments, matching what lazy initialization creates. -/
def obsEntry (p : ParamEntry α) : List α × Nat × List α × List α :=
  (p.value,
   ((p.st.map (fun s => (s.step, s.exp_avg, s.exp_avg_sq))).getD
     (0, zerosLike p.value, zerosLike p.value)))

/-- Observable data of the whole optimizer state. -/
def obsGroups (gs : List (ParamGroup α)) : List (List (List α × Nat × List α × List α)) :=
  gs.map (fun g => g.params.map obsEntry)

/-- Well-formedness: tensors attached to a parameter all have the
parameter's shape, and an `amsgrad` group's state records carry the max
second moment tensor (as lazy initialization guarantees). -/
def wfEntry (amsgrad : Bool) (p : ParamEntry α) : Bool :=
  (p.grad.all (fun g => g.data.length == p.value.length)) &&
  (p.st.all (fun s =>
    s.exp_avg.length == p.value.length &&
    s.exp_avg_sq.length == p.value.length &&
    (s.max_exp_avg_sq.all (fun m => m.length == p.value.length)) &&
    (! amsgrad || s.max_exp_avg_sq.isSome)))

/-- Well-formedness of the whole optimizer state. -/
def wfGroups (gs : List (ParamGroup α)) : Bool :=
  gs.all (fun g => g.params.all (wfEntry g.hyper.amsgrad))

/-- Pointwise relation between two optimizer states: same group structure,
unchanged hyperparameters, corresponding entries related by `R`. -/
def EntryRel (R : ParamEntry α → ParamEntry α → Prop)
    (gs gs' : List (ParamGroup α)) : Prop :=
  List.Forall₂ (fun g g' => g.hyper = g'.hyper ∧ List.Forall₂ R g.params g'.params)
    gs gs'

end OptimizerDefs

/-!
Benchmark sweep driver (`launch_benchmarks.py` lines 37–43): for each run's
captured output the script evaluates
`re.search("Results: \\S+ \\S+ \\S+ \\S+ \\S+\\n", out)` and, on a match,
reports `match.group(0).split(" ")[-1].strip()`; otherwise the latency
stays the sentinel `"N/A"`.

The pattern is a fixed alternation-free sequence of literals and greedy
`\S+` atoms, each followed by a literal whitespace character (`' '` or
`'\n'`).  Backtracking can never shorten a `\S+`: a shortened run would
have to be followed by the literal `' '`/`'\n'`, yet the character after a
proper prefix of a maximal non-whitespace run is non-whitespace.  Hence at
every start position the regex has at most one match, computed by taking
maximal non-whitespace runs, and `re.search` returns the leftmost such
position — which is what `matchAt` / `reSearchPos` below compute.
-/

/-- Python's `\s` class (whitespace as used by `\S` and `str.strip`). -/
def isPySpace (c : Char) : Bool :=
  c = ' ' || c = '\t' || c = '\n' || c = '\r' || c = '\x0b' || c = '\x0c'

/-- Matcher for the tail `\S+ \S+ … \S+\n` of the pattern: `k` remaining
`\S+` atoms, the last one followed by `'\n'`, the others by `' '`.  Returns
the matched characters. -/
def fiveTok : Nat → List Char → Option (List Char)
  | 0, _ => none
  | 1, s =>
    let t := s.takeWhile (fun c => ! isPySpace c)
    if t.isEmpty then none
    else
      match s.drop t.length with
      | '\n' :: _ => some (t ++ ['\n'])
      | _ => none
  | (k + 2), s =>
    let t := s.takeWhile (fun c => ! isPySpace c)
    if t.isEmpty then none
    else
      match s.drop t.length with
      | ' ' :: s' => (fiveTok (k + 1) s').map (fun m => t ++ ' ' :: m)
      | _ => none

/-- The literal head of the pattern. -/
def resultsLit : List Char := "Results: ".data

/-- Match of the whole pattern at the head of `s`, returning the matched
prefix. -/
def matchAt (s : List Char) : Option (List Char) :=
  if resultsLit.isPrefixOf s then
    (fiveTok 5 (s.drop resultsLit.length)).map (fun m => resultsLit ++ m)
  else none

/-- `re.search`: the leftmost match, returned together with the text before
it (`out = before ++ match ++ rest`). -/
def reSearchPos : List Char → Option (List Char × List Char)
  | [] => none
  | c :: s =>
    match matchAt (c :: s) with
    | some m => some ([], m)
    | none => (reSearchPos s).map (fun p => (c :: p.1, p.2))

/-- Python `str.split(" ")`: split on every single space, keeping empty
pieces. -/
def splitSp : List Char → List (List Char)
  | [] => [[]]
  | c :: s =>
    if c = ' ' then [] :: splitSp s
    else
      match splitSp s with
      | [] => [[c]]
      | t :: r => (c :: t) :: r

/-- Python `str.strip()`: drop leading and trailing whitespace. -/
def pyStrip (l : List Char) : List Char :=
  ((l.dropWhile isPySpace).reverse.dropWhile isPySpace).reverse

/-- The latency the script reports for one captured output (lines 37–43):
the last space-separated piece of the leftmost match, stripped; the sentinel
`"N/A"` when the pattern does not occur. -/
def latencyOf (out : List Char) : List Char :=
  match reSearchPos out with
  | some p => pyStrip ((splitSp p.2).getLastD [])
  | none => "N/A".data

/-- The newline-terminated lines of a string (the final unterminated
fragment, which the newline-anchored pattern can never match, is not a
line). -/
def linesTerm : List Char → List (List Char)
  | [] => []
  | c :: s =>
    if c = '\n' then [] :: linesTerm s
    else
      match linesTerm s with
      | [] => []
      | l :: ls => (c :: l) :: ls

/-- A line matches the five-token "Results:" pattern when the regex matches
somewhere in the line (with its terminating newline). -/
def lineHasFive (l : List Char) : Bool :=
  (reSearchPos (l ++ ['\n'])).isSome

/-- Auxiliary for whitespace splitting: `cur` is the reversed current
token. -/
def wsSplitAux : List Char → List Char → List (List Char)
  | cur, [] => if cur.isEmpty then [] else [cur.reverse]
  | cur, c :: s =>
    if isPySpace c then
      (if cur.isEmpty then wsSplitAux [] s else cur.reverse :: wsSplitAux [] s)
    else wsSplitAux (c :: cur) s

/-- The whitespace-delimited tokens of a string (Python `str.split()`). -/
def wsSplit (l : List Char) : List (List Char) :=
  wsSplitAux [] l

/-- The last whitespace-delimited token of a line (`[]` if none). -/
def lastTok (l : List Char) : List Char :=
  (wsSplit l).getLastD []

/-- The end-to-end scenario of the spec: a single parameter of value `1.0`
with gradient `0.1`, `lr = 1e-3`, `betas = (0.9, 0.999)`, `eps = 1e-8`,
no weight decay, no amsgrad, fresh state. -/
def demoGroups : List (ParamGroup ℚ) :=
  [{ hyper := { lr := 1/1000, beta1 := 9/10, beta2 := 999/1000,
                eps := 1/100000000, weight_decay := 0, amsgrad := false }
     params := [{ value := [1], grad := some { data := [1/10], sparse := false },
                  st := none }] }]

/-! ### List helper lemmas -/

theorem zipWith3_ext {α β γ δ : Type} {f g : α → β → γ → δ}
    (h : ∀ a b c, f a b c = g a b c) :
    ∀ l₁ : List α, ∀ l₂ : List β, ∀ l₃ : List γ,
      zipWith3 f l₁ l₂ l₃ = zipWith3 g l₁ l₂ l₃
  | [], _, _ => rfl
  | _ :: _, [], _ => rfl
  | _ :: _, _ :: _, [] => rfl
  | x :: xs, y :: ys, z :: zs => by
    simp only [zipWith3, h, zipWith3_ext h xs ys zs]

theorem zipWith3_self_right {α β δ : Type} (f : α → β → β → δ) :
    ∀ l₁ : List α, ∀ l₂ : List β,
      zipWith3 f l₁ l₂ l₂ = List.zipWith (fun x y => f x y y) l₁ l₂
  | [], _ => rfl
  | _ :: _, [] => rfl
  | x :: xs, y :: ys => by
    simp only [zipWith3, List.zipWith, zipWith3_self_right f xs ys]

theorem zipWith3_map_left {α α' β γ δ : Type} (f : α → β → γ → δ) (g : α' → α) :
    ∀ l₁ : List α', ∀ l₂ : List β, ∀ l₃ : List γ,
      zipWith3 f (l₁.map g) l₂ l₃ = zipWith3 (fun x y z => f (g x) y z) l₁ l₂ l₃
  | [], _, _ => rfl
  | _ :: _, [], _ => by simp [zipWith3]
  | _ :: _, _ :: _, [] => by simp [zipWith3]
  | x :: xs, y :: ys, z :: zs => by
    simp only [List.map, zipWith3, zipWith3_map_left f g xs ys zs]

theorem zipWith_ext {α β δ : Type} {f g : α → β → δ}
    (h : ∀ a b, f a b = g a b) :
    ∀ l₁ : List α, ∀ l₂ : List β, List.zipWith f l₁ l₂ = List.zipWith g l₁ l₂
  | [], _ => rfl
  | _ :: _, [] => rfl
  | x :: xs, y :: ys => by
    simp only [List.zipWith, h, zipWith_ext h xs ys]

theorem zipWith3_length {α β γ δ : Type} (f : α → β → γ → δ) :
    ∀ l₁ : List α, ∀ l₂ : List β, ∀ l₃ : List γ,
      (zipWith3 f l₁ l₂ l₃).length = min l₁.length (min l₂.length l₃.length)
  | [], _, _ => by simp [zipWith3]
  | _ :: _, [], _ => by simp [zipWith3]
  | _ :: _, _ :: _, [] => by simp [zipWith3]
  | x :: xs, y :: ys, z :: zs => by
    simp only [zipWith3, List.length_cons, zipWith3_length f xs ys zs]
    omega

section OptimizerLemmas

variable {α : Type} [LinearOrderedField α]

/-- Adding an (elementwise) zero tensor of at least the same length is the
identity. -/
theorem torchAdd_zerosLike (t : List α) :
    ∀ u : List α, t.length ≤ u.length → torchAdd t (zerosLike u) 1 = t := by
  induction t with
  | nil => intro u _; rfl
  | cons x xs ih =>
    intro u hu
    cases u with
    | nil => simp at hu
    | cons y ys =>
      have ih' := ih ys (by simpa using hu)
      simp only [torchAdd, zerosLike] at ih'
      simp only [torchAdd, zerosLike, List.map_cons, List.zipWith_cons_cons,
        mul_zero, add_zero, List.cons.injEq]
      exact ⟨trivial, ih'⟩

/-- With the skip-signal set, the per-parameter update leaves parameter and
moments numerically unchanged and only refreshes the amsgrad maximum. -/
theorem adam_step_py_param_skip (sq : α → α) (h : Hyper α) (step : Nat)
    (param grad m v : List α) (mx : Option (List α)) (hm : param.length ≤ m.length) :
    adam_step_py_param sq h true step param grad m v mx =
      (param, m, v, if h.amsgrad then some (torchMaximum (mx.getD []) v) else mx) := by
  cases hams : h.amsgrad <;>
    simp [adam_step_py_param, hams, torchAdd_zerosLike param m hm, ite_self]

/-- The gather loop increments the recorded step count exactly when the
skip-signal is unset and a gradient is attached. -/
theorem entryCnt_gatherEntry (a fi : Bool) (p : ParamEntry α) :
    entryCnt (gatherEntry a fi p) =
      if p.grad.isSome then (if fi then entryCnt p else entryCnt p + 1)
      else entryCnt p := by
  cases hg : p.grad <;> cases hst : p.st <;>
    cases fi <;> simp [gatherEntry, entryCnt, lazyInit, hg, hst]

/-- `adam_step_py` never changes the recorded step count. -/
theorem entryCnt_adamEntry (sq : α → α) (h : Hyper α) (fi : Bool) (p : ParamEntry α) :
    entryCnt (adam_step_py_entry sq h fi p) = entryCnt p := by
  cases hg : p.grad <;> cases hst : p.st <;>
    simp [adam_step_py_entry, entryCnt, hg, hst]

/-- The gather loop never touches the parameter value. -/
theorem gatherEntry_value (a fi : Bool) (p : ParamEntry α) :
    (gatherEntry a fi p).value = p.value := by
  cases hg : p.grad <;> simp [gatherEntry, hg]

/-- The gather loop never touches the gradient. -/
theorem gatherEntry_grad (a fi : Bool) (p : ParamEntry α) :
    (gatherEntry a fi p).grad = p.grad := by
  cases hg : p.grad <;> simp [gatherEntry, hg]

/-- `adam_step_py` never touches the gradient. -/
theorem adamEntry_grad (sq : α → α) (h : Hyper α) (fi : Bool) (p : ParamEntry α) :
    (adam_step_py_entry sq h fi p).grad = p.grad := by
  cases hg : p.grad <;> cases hst : p.st <;>
    simp [adam_step_py_entry, hg, hst]

/-- With the skip-signal set, gathering preserves the observable data (lazy
initialization creates exactly the zero state the observation reads for a
missing record). -/
theorem obsEntry_gatherEntry_skip (a : Bool) (p : ParamEntry α) :
    obsEntry (gatherEntry a true p) = obsEntry p := by
  cases hg : p.grad <;> cases hst : p.st <;>
    simp [obsEntry, gatherEntry, lazyInit, hg, hst]

/-- With the skip-signal set, `adam_step_py` preserves the observable
data of a well-formed entry. -/
theorem obsEntry_adamEntry_skip (sq : α → α) (h : Hyper α) (p : ParamEntry α)
    (hwf : wfEntry h.amsgrad p = true) :
    obsEntry (adam_step_py_entry sq h true p) = obsEntry p := by
  cases hg : p.grad with
  | none => simp [adam_step_py_entry, hg]
  | some g =>
    cases hst : p.st with
    | none => simp [adam_step_py_entry, hg, hst]
    | some s =>
      simp only [wfEntry, hg, hst, Option.all_some, Bool.and_eq_true, beq_iff_eq] at hwf
      have hm : p.value.length ≤ s.exp_avg.length := le_of_eq hwf.2.1.1.1.symm
      simp [adam_step_py_entry, hg, hst, obsEntry,
        adam_step_py_param_skip sq h s.step p.value g.data s.exp_avg s.exp_avg_sq
          s.max_exp_avg_sq hm]

/-- Gathering preserves well-formedness. -/
theorem wfEntry_gatherEntry (a fi : Bool) (p : ParamEntry α)
    (hwf : wfEntry a p = true) : wfEntry a (gatherEntry a fi p) = true := by
  cases hg : p.grad with
  | none => simpa [gatherEntry, hg] using hwf
  | some g =>
    cases hst : p.st with
    | none =>
      simp only [wfEntry, hg, Option.all_some, Bool.and_eq_true, beq_iff_eq] at hwf
      cases a <;>
        simp [gatherEntry, hg, hst, wfEntry, lazyInit, zerosLike, hwf]
    | some s =>
      simp only [wfEntry, hg, hst, Option.all_some, Bool.and_eq_true, beq_iff_eq] at hwf
      simp [gatherEntry, hg, hst, wfEntry, hwf.1, hwf.2.1.1.1, hwf.2.1.1.2, hwf.2.1.2, hwf.2.2]

/-- With the skip-signal set, `adam_step_py` preserves well-formedness. -/
theorem wfEntry_adamEntry_skip (sq : α → α) (h : Hyper α) (p : ParamEntry α)
    (hwf : wfEntry h.amsgrad p = true) :
    wfEntry h.amsgrad (adam_step_py_entry sq h true p) = true := by
  cases hg : p.grad with
  | none => simpa [adam_step_py_entry, hg] using hwf
  | some g =>
    cases hst : p.st with
    | none => simpa [adam_step_py_entry, hg, hst] using hwf
    | some s =>
      simp only [wfEntry, hg, hst, Option.all_some, Bool.and_eq_true, beq_iff_eq] at hwf
      have hm : p.value.length ≤ s.exp_avg.length := le_of_eq hwf.2.1.1.1.symm
      simp only [adam_step_py_entry, hg, hst,
        adam_step_py_param_skip sq h s.step p.value g.data s.exp_avg s.exp_avg_sq
          s.max_exp_avg_sq hm]
      cases hams : h.amsgrad with
      | false =>
        simp only [hams, Bool.false_eq_true, if_false]
        simp [wfEntry, hg, hwf.1, hwf.2.1.1.1, hwf.2.1.1.2, hwf.2.1.2]
      | true =>
        have hsome : s.max_exp_avg_sq.isSome = true := by
          simpa [hams] using hwf.2.2
        obtain ⟨mx, hmx⟩ := Option.isSome_iff_exists.mp hsome
        have hmxl : mx.length = p.value.length := by
          have := hwf.2.1.2
          simp [hmx, Option.all_some] at this
          exact this
        simp only [hams, if_true]
        simp [wfEntry, hg, hwf.1, hwf.2.1.1.1, hwf.2.1.1.2, hmx, torchMaximum,
          List.length_zipWith, hmxl, hwf.2.1.1.2]

/-- On a sparse-free parameter list the gather loop is the entrywise map. -/
theorem gather_ok_of_noSparse (a fi : Bool) :
    ∀ ps : List (ParamEntry α), (∀ p ∈ ps, isSparse p = false) →
      gather a fi ps = .ok (ps.map (gatherEntry a fi))
  | [], _ => rfl
  | p :: ps, h => by
    have hp : isSparse p = false := h p (by simp)
    have ih := gather_ok_of_noSparse a fi ps (fun q hq => h q (by simp [hq]))
    simp [gather, hp, ih]

/-- The gather loop raises at the first sparse entry, having already
gathered (created state for, and possibly incremented) every earlier
entry. -/
theorem gather_sparse_split (a fi : Bool) :
    ∀ pre : List (ParamEntry α), ∀ p : ParamEntry α, ∀ post : List (ParamEntry α),
      (∀ q ∈ pre, isSparse q = false) → isSparse p = true →
      gather a fi (pre ++ p :: post) = .error (pre.map (gatherEntry a fi) ++ p :: post)
  | [], p, post, _, hp => by simp [gather, hp]
  | q :: pre, p, post, h, hp => by
    have hq : isSparse q = false := h q (by simp)
    have ih := gather_sparse_split a fi pre p post (fun r hr => h r (by simp [hr])) hp
    simp [gather, hq, ih]

/-- Complete case analysis of the gather loop. -/
theorem gather_cases (a fi : Bool) (ps : List (ParamEntry α)) :
    (gather a fi ps = .ok (ps.map (gatherEntry a fi)) ∧ ∀ p ∈ ps, isSparse p = false)
    ∨ (∃ pre p post, ps = pre ++ p :: post ∧ (∀ q ∈ pre, isSparse q = false) ∧
        isSparse p = true ∧
        gather a fi ps = .error (pre.map (gatherEntry a fi) ++ p :: post)) := by
  induction ps with
  | nil => exact .inl ⟨rfl, by simp⟩
  | cons p ps ih =>
    by_cases hp : isSparse p = true
    · exact .inr ⟨[], p, ps, by simp, by simp, hp, by simp [gather, hp]⟩
    · have hp' : isSparse p = false := by simpa using hp
      rcases ih with ⟨hok, hns⟩ | ⟨pre, q, post, hdec, hpre, hq, herr⟩
      · refine .inl ⟨by simp [gather, hp', hok], ?_⟩
        intro r hr
        rcases List.mem_cons.mp hr with rfl | hr
        · exact hp'
        · exact hns r hr
      · refine .inr ⟨p :: pre, q, post, by simp [hdec], ?_, hq, ?_⟩
        · intro r hr
          rcases List.mem_cons.mp hr with rfl | hr
          · exact hp'
          · exact hpre r hr
        · subst hdec
          simp [gather, hp', herr]

/-- On a sparse-free group, processing is gather followed by
`adam_step_py`. -/
theorem stepGroup_ok_of_noSparse (sq : α → α) (fi : Bool) (g : ParamGroup α)
    (h : ∀ p ∈ g.params, isSparse p = false) :
    stepGroup sq fi g = .ok (groupFull sq fi g) := by
  simp [stepGroup, gather_ok_of_noSparse _ _ _ h, groupFull]

/-- On sparse-free optimizer state, `Adam.step`'s group loop succeeds and
performs the full two-phase update on every group. -/
theorem stepGroups_ok_of_noSparse (sq : α → α) (fi : Bool) :
    ∀ gs : List (ParamGroup α), noSparse gs = true →
      stepGroups sq fi gs = (.ok (), fullStep sq fi gs)
  | [], _ => rfl
  | g :: gs, h => by
    have h' : (g.params.all (fun p => ! isSparse p)) = true ∧ noSparse gs = true := by
      simpa only [noSparse, List.all_cons, Bool.and_eq_true] using h
    have hg : ∀ p ∈ g.params, isSparse p = false := by
      intro p hp
      have := List.all_eq_true.mp h'.1 p hp
      simpa using this
    have hgs : noSparse gs = true := h'.2
    have ih := stepGroups_ok_of_noSparse sq fi gs hgs
    simp [stepGroups, stepGroup_ok_of_noSparse sq fi g hg, ih, fullStep]

/-- Complete case analysis of `Adam.step`'s group loop: either no gradient
is sparse and every group receives the full update, or the call raises
`RuntimeError` at the first sparse parameter: earlier groups are fully
updated, earlier entries of its group are gathered, and everything from the
sparse parameter on is untouched. -/
theorem stepGroups_cases (sq : α → α) (fi : Bool) (gs : List (ParamGroup α)) :
    (noSparse gs = true ∧ stepGroups sq fi gs = (.ok (), fullStep sq fi gs))
    ∨ (∃ preG g postG pre q post,
        gs = preG ++ g :: postG ∧ noSparse preG = true ∧
        g.params = pre ++ q :: post ∧ (∀ r ∈ pre, isSparse r = false) ∧
        isSparse q = true ∧
        stepGroups sq fi gs = (.error .runtimeError,
          fullStep sq fi preG ++
            ({ g with params := pre.map (gatherEntry g.hyper.amsgrad fi) ++ q :: post }
              : ParamGroup α) :: postG)) := by
  induction gs with
  | nil => exact .inl ⟨rfl, rfl⟩
  | cons g gs ih =>
    rcases gather_cases g.hyper.amsgrad fi g.params with ⟨hok, hns⟩ |
        ⟨pre, q, post, hdec, hpre, hq, herr⟩
    · rcases ih with ⟨hnsgs, hgs⟩ | ⟨preG, g', postG, pre, q, post, hdecG, hnspre, hdecp, hpre, hq, herr⟩
      · refine .inl ⟨?_, ?_⟩
        · simp only [noSparse, List.all_cons, Bool.and_eq_true]
          constructor
          · simp only [List.all_eq_true]
            intro p hp
            simp [hns p hp]
          · exact hnsgs
        · simp [stepGroups, stepGroup, hok, hgs, fullStep, groupFull, adam_step_py]
      · refine .inr ⟨g :: preG, g', postG, pre, q, post, by simp [hdecG], ?_, hdecp, hpre, hq, ?_⟩
        · simp only [noSparse, List.all_cons, Bool.and_eq_true]
          refine ⟨?_, hnspre⟩
          simp only [List.all_eq_true]
          intro p hp
          simp [hns p hp]
        · simp [stepGroups, stepGroup, hok, herr, fullStep, groupFull, adam_step_py]
    · refine .inr ⟨[], g, gs, pre, q, post, by simp [hdec], rfl, hdec, hpre, hq, ?_⟩
      simp [stepGroups, stepGroup, herr, fullStep]

end OptimizerLemmas

/-! ### Relation plumbing between optimizer states -/

theorem forall2_getElem? {α β : Type} {R : α → β → Prop} :
    ∀ {l : List α} {l' : List β}, List.Forall₂ R l l' →
      ∀ i : Nat, Option.Rel R l[i]? l'[i]?
  | [], [], _, _ => by simpa using Option.Rel.none
  | _ :: _, _ :: _, h, 0 => by
    rcases h with _ | ⟨hab, _⟩
    simpa using Option.Rel.some hab
  | _ :: _, _ :: _, h, (i + 1) => by
    rcases h with _ | ⟨_, htl⟩
    simpa using forall2_getElem? htl i

theorem forall2_map_self {γ : Type} {R : γ → γ → Prop} {l : List γ} (f : γ → γ)
    (h : ∀ x ∈ l, R x (f x)) : List.Forall₂ R l (l.map f) :=
  List.forall₂_map_right_iff.mpr (List.forall₂_same.mpr h)

theorem map_eq_of_forall2 {γ δ : Type} {R : γ → γ → Prop} {f : γ → δ}
    (hf : ∀ a b, R a b → f b = f a) :
    ∀ {l l' : List γ}, List.Forall₂ R l l' → l'.map f = l.map f
  | [], [], _ => rfl
  | _ :: _, _ :: _, h => by
    rcases h with _ | ⟨hab, htl⟩
    simp [hf _ _ hab, map_eq_of_forall2 hf htl]

section RelLemmas

variable {α : Type} [LinearOrderedField α]

theorem entryRel_refl (R : ParamEntry α → ParamEntry α → Prop)
    (hR : ∀ p, R p p) (gs : List (ParamGroup α)) : EntryRel R gs gs :=
  List.forall₂_same.mpr (fun g _ => ⟨rfl, List.forall₂_same.mpr (fun p _ => hR p)⟩)

theorem entryRel_entryAt {R : ParamEntry α → ParamEntry α → Prop}
    {gs gs' : List (ParamGroup α)} (h : EntryRel R gs gs') (i j : Nat) :
    Option.Rel R (entryAt gs i j) (entryAt gs' i j) := by
  have hi := forall2_getElem? h i
  simp only [entryAt]
  generalize hg1 : gs[i]? = og at hi ⊢
  generalize hg2 : gs'[i]? = og' at hi ⊢
  cases hi with
  | none => exact Option.Rel.none
  | some hgg => exact forall2_getElem? hgg.2 j

theorem cntAt_le_of_entryRel {gs gs' : List (ParamGroup α)}
    (h : EntryRel (fun p p' => entryCnt p ≤ entryCnt p') gs gs') (i j : Nat) :
    cntAt gs i j ≤ cntAt gs' i j := by
  have hrel := entryRel_entryAt h i j
  simp only [cntAt]
  generalize h1 : entryAt gs i j = o at hrel ⊢
  generalize h2 : entryAt gs' i j = o' at hrel ⊢
  cases hrel with
  | none => simp
  | some hpp => simpa using hpp

theorem obsGroups_eq_of_entryRel {gs gs' : List (ParamGroup α)}
    (h : EntryRel (fun p p' => obsEntry p' = obsEntry p) gs gs') :
    obsGroups gs' = obsGroups gs := by
  simp only [obsGroups]
  refine map_eq_of_forall2 ?_ h
  intro g g' hgg
  exact map_eq_of_forall2 (fun a b hab => hab) hgg.2

theorem forall2_append {γ δ : Type} {R : γ → δ → Prop} :
    ∀ {a : List γ} {b : List δ} {c : List γ} {d : List δ},
      List.Forall₂ R a b → List.Forall₂ R c d → List.Forall₂ R (a ++ c) (b ++ d)
  | [], [], _, _, _, h2 => h2
  | _ :: _, _ :: _, _, _, h1, h2 => by
    rcases h1 with _ | ⟨hab, htl⟩
    exact List.Forall₂.cons hab (forall2_append htl h2)

theorem step_entryRel_of_entry {α : Type} [LinearOrderedField α]
    {R : ParamEntry α → ParamEntry α → Prop} (sq : α → α) (fi : Bool)
    (gs : List (ParamGroup α)) (hrefl : ∀ p, R p p)
    (hgather : ∀ g ∈ gs, ∀ p ∈ g.params, R p (gatherEntry g.hyper.amsgrad fi p))
    (hfull : ∀ g ∈ gs, ∀ p ∈ g.params,
      R p (adam_step_py_entry sq g.hyper fi (gatherEntry g.hyper.amsgrad fi p))) :
    EntryRel R gs (stepGroups sq fi gs).2 := by
  rcases stepGroups_cases sq fi gs with ⟨_, hok⟩ |
      ⟨preG, g, postG, pre, q, post, hdecG, _, hdecp, _, _, herr⟩
  · rw [hok]
    simp only [fullStep]
    refine forall2_map_self _ ?_
    intro g hg
    refine ⟨rfl, ?_⟩
    simp only [groupFull, adam_step_py, List.map_map]
    exact forall2_map_self _ (fun p hp => hfull g hg p hp)
  · rw [herr]
    subst hdecG
    simp only []
    refine forall2_append ?_ (List.Forall₂.cons ⟨rfl, ?_⟩ ?_)
    · simp only [fullStep]
      refine forall2_map_self _ ?_
      intro g' hg'
      refine ⟨rfl, ?_⟩
      simp only [groupFull, adam_step_py, List.map_map]
      refine forall2_map_self _ ?_
      intro p hp
      exact hfull g' (by simp [hg']) p hp
    · rw [hdecp]
      refine forall2_append ?_ (List.forall₂_same.mpr (fun p _ => hrefl p))
      refine forall2_map_self _ ?_
      intro p hp
      exact hgather g (by simp) p (by simp [hdecp, hp])
    · exact List.forall₂_same.mpr (fun g' _ => ⟨rfl, List.forall₂_same.mpr (fun p _ => hrefl p)⟩)

/-- The gather loop can only keep or increase a step count. -/
theorem entryCnt_le_gatherEntry (a fi : Bool) (p : ParamEntry α) :
    entryCnt p ≤ entryCnt (gatherEntry a fi p) := by
  rw [entryCnt_gatherEntry]
  cases fi <;> by_cases hg : p.grad.isSome = true <;> simp [hg]

/-- Any `Adam.step` call relates every entry to its updated form by
"step count does not decrease". -/
theorem step_cnt_entryRel {α : Type} [LinearOrderedField α] (sq : α → α)
    (fi : Option FoundInf) (gs : List (ParamGroup α)) :
    EntryRel (fun p p' => entryCnt p ≤ entryCnt p') gs (Adam.step sq fi gs).2 := by
  cases fi with
  | none => exact entryRel_refl (fun p p' => entryCnt p ≤ entryCnt p') (fun _ => le_refl _) gs
  | some f =>
    by_cases hs : f.shape.length ≠ 0
    · simp only [Adam.step]
      rw [if_pos hs]
      exact entryRel_refl (fun p p' => entryCnt p ≤ entryCnt p') (fun _ => le_refl _) gs
    · simp only [Adam.step]
      rw [if_neg hs]
      refine step_entryRel_of_entry sq f.value gs (fun _ => le_refl _) ?_ ?_
      · intro g _ p _
        exact entryCnt_le_gatherEntry g.hyper.amsgrad f.value p
      · intro g _ p _
        rw [entryCnt_adamEntry]
        exact entryCnt_le_gatherEntry g.hyper.amsgrad f.value p

/-- A skip-signal-set `Adam.step` call preserves the observable data of a
well-formed optimizer state. -/
theorem step_obs_skip {α : Type} [LinearOrderedField α] (sq : α → α)
    (f : FoundInf) (gs : List (ParamGroup α)) (hv : f.value = true)
    (hwf : wfGroups gs = true) :
    EntryRel (fun p p' => obsEntry p' = obsEntry p) gs
      (Adam.step sq (some f) gs).2 := by
  have hwf' : ∀ g ∈ gs, ∀ p ∈ g.params, wfEntry g.hyper.amsgrad p = true := by
    intro g hg p hp
    have := List.all_eq_true.mp hwf g hg
    exact List.all_eq_true.mp this p hp
  by_cases hs : f.shape.length ≠ 0
  · simp only [Adam.step]
    rw [if_pos hs]
    exact entryRel_refl (fun p p' => obsEntry p' = obsEntry p) (fun _ => rfl) gs
  · simp only [Adam.step]
    rw [if_neg hs, hv]
    refine step_entryRel_of_entry sq true gs (fun _ => rfl) ?_ ?_
    · intro g _ p _
      exact obsEntry_gatherEntry_skip g.hyper.amsgrad p
    · intro g hg p hp
      rw [obsEntry_adamEntry_skip sq g.hyper _
          (wfEntry_gatherEntry g.hyper.amsgrad true p (hwf' g hg p hp)),
        obsEntry_gatherEntry_skip]

/-- A skip-signal-set `Adam.step` call preserves well-formedness. -/
theorem step_wf_skip {α : Type} [LinearOrderedField α] (sq : α → α)
    (f : FoundInf) (gs : List (ParamGroup α)) (hv : f.value = true)
    (hwf : wfGroups gs = true) :
    wfGroups (Adam.step sq (some f) gs).2 = true := by
  have hwf' : ∀ g ∈ gs, ∀ p ∈ g.params, wfEntry g.hyper.amsgrad p = true := by
    intro g hg p hp
    have := List.all_eq_true.mp hwf g hg
    exact List.all_eq_true.mp this p hp
  by_cases hs : f.shape.length ≠ 0
  · simp only [Adam.step]
    rw [if_pos hs]
    exact hwf
  · simp only [Adam.step]
    rw [if_neg hs, hv]
    rcases stepGroups_cases sq true gs with ⟨_, hok⟩ |
        ⟨preG, g, postG, pre, q, post, hdecG, _, hdecp, _, _, herr⟩
    · rw [hok]
      simp only [fullStep, wfGroups, List.all_eq_true]
      intro g' hg'
      obtain ⟨g, hg, rfl⟩ := List.mem_map.mp hg'
      simp only [groupFull, adam_step_py, List.map_map, List.all_eq_true]
      intro x hx
      obtain ⟨p, hp, rfl⟩ := List.mem_map.mp hx
      exact wfEntry_adamEntry_skip sq g.hyper _
        (wfEntry_gatherEntry g.hyper.amsgrad true p (hwf' g hg p hp))
    · rw [herr]
      subst hdecG
      simp only [wfGroups, List.all_append, List.all_cons, Bool.and_eq_true,
        List.all_eq_true] at hwf ⊢
      obtain ⟨hpreG, hgq, hpostG⟩ := hwf
      refine ⟨?_, ?_, hpostG⟩
      · intro g' hg'
        simp only [fullStep] at hg'
        obtain ⟨g0, hg0, rfl⟩ := List.mem_map.mp hg'
        intro x hx
        simp only [groupFull, adam_step_py, List.map_map] at hx
        obtain ⟨p, hp, rfl⟩ := List.mem_map.mp hx
        exact wfEntry_adamEntry_skip sq g0.hyper _
          (wfEntry_gatherEntry g0.hyper.amsgrad true p (hpreG g0 hg0 p hp))
      · rw [hdecp] at hgq
        refine ⟨?_, hgq q (by simp), fun x hx => hgq x (by simp [hx])⟩
        intro x hx
        obtain ⟨p, hp, rfl⟩ := List.mem_map.mp hx
        exact wfEntry_gatherEntry g.hyper.amsgrad true p (hgq p (by simp [hp]))

end RelLemmas

/-! ### Normalization of the torch combinators into pointwise form -/

section NormLemmas

variable {α : Type} [LinearOrderedField α]

theorem torchAdd_mulScalar (m g : List α) (b c : α) :
    torchAdd (torchMulScalar m b) g c = List.zipWith (fun a x => b * a + c * x) m g := by
  simp only [torchAdd, torchMulScalar, List.zipWith_map_left]
  exact zipWith_ext (fun a x => by ring) m g

theorem zipWith_mulScalar_left (m g : List α) (b c : α) :
    List.zipWith (fun x y => x + c * y) (torchMulScalar m b) g =
      List.zipWith (fun a y => b * a + c * y) m g := by
  simp only [torchMulScalar, List.zipWith_map_left]
  exact zipWith_ext (fun a x => by ring) m g

theorem torchAddcmul_mulScalar_self (v g : List α) (b c : α) :
    torchAddcmul (torchMulScalar v b) g g c =
      List.zipWith (fun a x => b * a + c * (x * x)) v g := by
  simp only [torchAddcmul, torchMulScalar, zipWith3_map_left, zipWith3_self_right,
    List.zipWith_map_left]
  exact zipWith_ext (fun a x => by ring) v g

theorem denom_maps (sq : α → α) (chosen : List α) (s e : α) :
    ((chosen.map sq).map (fun x => x / s)).map (fun x => x + e) =
      chosen.map (fun c => sq c / s + e) := by
  simp only [List.map_map]
  rfl

theorem torchAddcdiv_neg (p m d : List α) (s : α) :
    torchAddcdiv p m d (-s) = zipWith3 (fun x a c => x - s * (a / c)) p m d := by
  simp only [torchAddcdiv]
  exact zipWith3_ext (fun x a c => by ring) p m d

end NormLemmas

/-! ### Claims -/

/-- C10: the skip-signal argument of `Adam.step` defaults to `None`;
calling `step` without supplying it fails with `AttributeError` when the
scalar-shape check dereferences `None` — it is not reported through the
documented `ValueError` — and it raises before any parameter or optimizer
state is mutated. -/
theorem adam_step_none_attributeError {α : Type} [LinearOrderedField α]
    (sq : α → α) (gs : List (ParamGroup α)) :
    Adam.step sq none gs = (.error .attributeError, gs) ∧
      (PyError.attributeError ≠ PyError.valueError) :=
  ⟨rfl, by decide⟩

/-- C6: a non-scalar skip-signal (shape of nonzero rank) makes `Adam.step`
raise `ValueError` before any parameter or optimizer state is mutated, and
a scalar skip-signal always passes this check (the call never produces
`ValueError`). -/
theorem adam_step_shape_check {α : Type} [LinearOrderedField α]
    (sq : α → α) (f : FoundInf) (gs : List (ParamGroup α)) :
    (f.shape.length ≠ 0 → Adam.step sq (some f) gs = (.error .valueError, gs)) ∧
    (f.shape.length = 0 → (Adam.step sq (some f) gs).1 ≠ .error .valueError) := by
  constructor
  · intro hs
    simp only [Adam.step]
    rw [if_pos hs]
  · intro hs
    simp only [Adam.step]
    rw [if_neg (by simp [hs])]
    rcases stepGroups_cases sq f.value gs with ⟨_, hok⟩ |
        ⟨_, _, _, _, _, _, _, _, _, _, _, herr⟩
    · rw [hok]
      simp
    · rw [herr]
      simp

/-- Witness for C6 at concrete inputs. -/
theorem adam_step_shape_check_witness :
    Adam.step (fun x => x) (some ⟨[2], true⟩) ([] : List (ParamGroup ℚ)) =
        (.error .valueError, []) ∧
      (Adam.step (fun x => x) (some ⟨[], true⟩) ([] : List (ParamGroup ℚ))).1 ≠
        .error .valueError :=
  ⟨(adam_step_shape_check (fun x => x) ⟨[2], true⟩ []).1 (by decide),
   (adam_step_shape_check (fun x => x) ⟨[], true⟩ []).2 rfl⟩

/-- C7: `Adam.__init__` succeeds exactly when `0 ≤ lr`, `0 ≤ eps`,
`0 ≤ weight_decay` and both betas lie in `[0, 1)`, and any out-of-range
value raises `ValueError` at construction time. -/
theorem adam_init_validates {α : Type} [LinearOrderedField α]
    (params : List (List (ParamEntry α))) (lr : α) (betas : α × α)
    (eps wd : α) (ams : Bool) :
    ((∃ gs, Adam.init params lr betas eps wd ams = .ok gs) ↔
      (0 ≤ lr ∧ 0 ≤ eps ∧ (0 ≤ betas.1 ∧ betas.1 < 1) ∧
        (0 ≤ betas.2 ∧ betas.2 < 1) ∧ 0 ≤ wd)) ∧
    (¬ (0 ≤ lr ∧ 0 ≤ eps ∧ (0 ≤ betas.1 ∧ betas.1 < 1) ∧
        (0 ≤ betas.2 ∧ betas.2 < 1) ∧ 0 ≤ wd) →
      Adam.init params lr betas eps wd ams = .error .valueError) := by
  have herr : ¬ (0 ≤ lr ∧ 0 ≤ eps ∧ (0 ≤ betas.1 ∧ betas.1 < 1) ∧
      (0 ≤ betas.2 ∧ betas.2 < 1) ∧ 0 ≤ wd) →
      Adam.init params lr betas eps wd ams = .error .valueError := by
    intro hr
    simp only [Adam.init]
    by_cases h1 : 0 ≤ lr
    · by_cases h2 : 0 ≤ eps
      · by_cases h3 : 0 ≤ betas.1 ∧ betas.1 < 1
        · by_cases h4 : 0 ≤ betas.2 ∧ betas.2 < 1
          · by_cases h5 : 0 ≤ wd
            · exact absurd ⟨h1, h2, h3, h4, h5⟩ hr
            · rw [if_neg (by simpa using h1), if_neg (by simpa using h2),
                if_neg (by simpa using h3), if_neg (by simpa using h4),
                if_pos (by simpa using h5)]
          · rw [if_neg (by simpa using h1), if_neg (by simpa using h2),
              if_neg (by simpa using h3), if_pos (by simpa using h4)]
        · rw [if_neg (by simpa using h1), if_neg (by simpa using h2),
            if_pos (by simpa using h3)]
      · rw [if_neg (by simpa using h1), if_pos (by simpa using h2)]
    · rw [if_pos (by simpa using h1)]
  refine ⟨⟨?_, ?_⟩, herr⟩
  · intro hgs
    obtain ⟨gs, hgs⟩ := hgs
    by_contra hr
    rw [herr hr] at hgs
    exact absurd hgs (by simp)
  · intro hr
    obtain ⟨hlr, heps, hb1, hb2, hwd⟩ := hr
    simp only [Adam.init]
    rw [if_neg (by simpa using hlr), if_neg (by simpa using heps),
      if_neg (by simpa using hb1), if_neg (by simpa using hb2),
      if_neg (by simpa using hwd)]
    exact ⟨_, rfl⟩

/-- Witness for C7 at concrete inputs: an in-range tuple constructs, a
negative learning rate fails. -/
theorem adam_init_validates_witness :
    (∃ gs, Adam.init ([] : List (List (ParamEntry ℚ))) 1 (1/2, 1/2) 1 1 false = .ok gs) ∧
      Adam.init ([] : List (List (ParamEntry ℚ))) (-1) (1/2, 1/2) 1 1 false =
        .error .valueError :=
  ⟨(adam_init_validates [] 1 (1/2, 1/2) 1 1 false).1.mpr (by norm_num),
   (adam_init_validates [] (-1) (1/2, 1/2) 1 1 false).2 (by norm_num)⟩

/-- C3: with the skip-signal (a scalar whose value is set) supplied on every
call, every parameter's value, first and second moment estimates, and step
count are unchanged after any number of consecutive `Adam.step` calls. -/
theorem adam_skip_preserves_state {α : Type} [LinearOrderedField α] (sq : α → α)
    (fis : List (Option FoundInf)) (gs : List (ParamGroup α))
    (hfis : ∀ f ∈ fis, ∃ fv : FoundInf, f = some fv ∧ fv.shape = [] ∧ fv.value = true)
    (hwf : wfGroups gs = true) :
    obsGroups (stepSeq sq fis gs) = obsGroups gs := by
  induction fis generalizing gs with
  | nil => rfl
  | cons f fis ih =>
    obtain ⟨fv, rfl, hsh, hval⟩ := hfis f (by simp)
    have h1 : obsGroups ((Adam.step sq (some fv) gs).2) = obsGroups gs :=
      obsGroups_eq_of_entryRel (step_obs_skip sq fv gs hval hwf)
    have h2 : wfGroups ((Adam.step sq (some fv) gs).2) = true :=
      step_wf_skip sq fv gs hval hwf
    have hseq : stepSeq sq (some fv :: fis) gs =
        stepSeq sq fis ((Adam.step sq (some fv) gs).2) := rfl
    rw [hseq, ih ((Adam.step sq (some fv) gs).2)
      (fun f' hf => hfis f' (by simp [hf])) h2, h1]

/-- Witness for C3: two skip-set calls on a one-parameter optimizer with
existing state leave the observable data unchanged. -/
theorem adam_skip_preserves_state_witness :
    obsGroups (stepSeq (fun x => x) [some ⟨[], true⟩, some ⟨[], true⟩]
        ([⟨⟨1, 1/2, 1/2, 0, 0, false⟩,
           [⟨[3], some ⟨[1], false⟩, some ⟨2, [5], [7], none⟩⟩]⟩] :
          List (ParamGroup ℚ))) =
      obsGroups ([⟨⟨1, 1/2, 1/2, 0, 0, false⟩,
           [⟨[3], some ⟨[1], false⟩, some ⟨2, [5], [7], none⟩⟩]⟩] :
          List (ParamGroup ℚ)) :=
  adam_skip_preserves_state (fun x => x) _ _
    (by
      intro f hf
      have hf' : f = some ⟨[], true⟩ := by simpa using hf
      exact ⟨⟨[], true⟩, hf', rfl, rfl⟩)
    (by decide)

/-- The step count after an error-free full update. -/
theorem cntAt_fullStep {α : Type} [LinearOrderedField α] (sq : α → α) (fi : Bool)
    (gs : List (ParamGroup α)) (i j : Nat) :
    cntAt (fullStep sq fi gs) i j =
      if hasGradAt gs i j then
        (if fi then cntAt gs i j else cntAt gs i j + 1)
      else cntAt gs i j := by
  simp only [cntAt, hasGradAt, entryAt, fullStep]
  rw [List.getElem?_map]
  cases hgi : gs[i]? with
  | none => simp
  | some g =>
    simp only [Option.map_some', Option.some_bind]
    simp only [groupFull, adam_step_py, List.map_map]
    rw [List.getElem?_map]
    cases hj : g.params[j]? with
    | none => simp
    | some p =>
      simp only [Option.map_some', Option.getD_some]
      simp only [Function.comp, entryCnt_adamEntry, entryCnt_gatherEntry]

/-- C4 counterexample: a parameter whose gradient is not attached (here with
recorded step count 5) keeps its count although the skip-signal is unset in
a call that completes without error, so "the step count increments by
exactly 1 if and only if the skip-signal is not set" fails for it. -/
theorem adam_step_count_counterexample :
    (Adam.step (fun x => x) (some ⟨[], false⟩)
        ([⟨⟨1, 0, 0, 0, 0, false⟩, [⟨[0], none, some ⟨5, [0], [0], none⟩⟩]⟩] :
          List (ParamGroup ℚ))).1 = .ok () ∧
    cntAt ([⟨⟨1, 0, 0, 0, 0, false⟩, [⟨[0], none, some ⟨5, [0], [0], none⟩⟩]⟩] :
          List (ParamGroup ℚ)) 0 0 = 5 ∧
    cntAt (Adam.step (fun x => x) (some ⟨[], false⟩)
        ([⟨⟨1, 0, 0, 0, 0, false⟩, [⟨[0], none, some ⟨5, [0], [0], none⟩⟩]⟩] :
          List (ParamGroup ℚ))).2 0 0 = 5 :=
  ⟨rfl, by decide, by decide⟩

/-- C4 (amended): step counts are monotonically non-decreasing across any
sequence of `Adam.step` calls, and in a call that completes without raising
the count of a parameter with a gradient attached increments by exactly 1
when the skip-signal is unset and by 0 when it is set, while the count of a
parameter without a gradient stays unchanged. -/
theorem adam_step_count_amended {α : Type} [LinearOrderedField α] (sq : α → α) :
    (∀ (fis : List (Option FoundInf)) (gs : List (ParamGroup α)) (i j : Nat),
      cntAt gs i j ≤ cntAt (stepSeq sq fis gs) i j) ∧
    (∀ (f : FoundInf) (gs : List (ParamGroup α)) (i j : Nat),
      (Adam.step sq (some f) gs).1 = .ok () →
      cntAt (Adam.step sq (some f) gs).2 i j =
        (if hasGradAt gs i j then
          (if f.value then cntAt gs i j else cntAt gs i j + 1)
        else cntAt gs i j)) := by
  constructor
  · intro fis
    induction fis with
    | nil => intro gs i j; exact le_refl _
    | cons f fis ih =>
      intro gs i j
      have h1 : cntAt gs i j ≤ cntAt (Adam.step sq f gs).2 i j :=
        cntAt_le_of_entryRel (step_cnt_entryRel sq f gs) i j
      exact le_trans h1 (ih (Adam.step sq f gs).2 i j)
  · intro f gs i j hok
    by_cases hs : f.shape.length ≠ 0
    · exfalso
      revert hok
      simp only [Adam.step]
      rw [if_pos hs]
      simp
    · revert hok
      simp only [Adam.step]
      rw [if_neg hs]
      rcases stepGroups_cases sq f.value gs with ⟨_, hok2⟩ |
          ⟨_, _, _, _, _, _, _, _, _, _, _, herr⟩
      · rw [hok2]
        intro _
        exact cntAt_fullStep sq f.value gs i j
      · rw [herr]
        intro hcontra
        exact absurd hcontra (by simp)

/-- Witness for C4 (amended): the demo optimizer's single parameter has a
gradient; one unset-skip call increments its count from 0 to 1. -/
theorem adam_step_count_amended_witness :
    (Adam.step (fun x => x) (some ⟨[], false⟩) demoGroups).1 = .ok () ∧
    cntAt (Adam.step (fun x => x) (some ⟨[], false⟩) demoGroups).2 0 0 =
      (if hasGradAt demoGroups 0 0 then
        (if (⟨[], false⟩ : FoundInf).value then cntAt demoGroups 0 0
         else cntAt demoGroups 0 0 + 1)
      else cntAt demoGroups 0 0) :=
  ⟨rfl,
   (adam_step_count_amended (fun x => x)).2 ⟨[], false⟩ demoGroups 0 0 rfl⟩

/-- Indexing a list whose prefix has been mapped. -/
theorem getElem?_map_append_cons {γ : Type} (f : γ → γ) (pre : List γ) (x : γ)
    (post : List γ) (j : Nat) :
    (pre.map f ++ x :: post)[j]? =
      if j < pre.length then (pre[j]?).map f else (pre ++ x :: post)[j]? := by
  by_cases hj : j < pre.length
  · rw [if_pos hj, List.getElem?_append, List.length_map, if_pos hj, List.getElem?_map]
  · rw [if_neg hj, List.getElem?_append, List.getElem?_append, List.length_map,
      if_neg hj, if_neg hj]

/-- C5 counterexample: with a dense-gradient parameter ahead of a sparse
one in the same group and the skip-signal unset, the call raises
`RuntimeError`, but the dense parameter's step count has already been
incremented from 0 to 1 — the optimizer state is not left untouched. -/
theorem adam_sparse_counterexample :
    (Adam.step (fun x => x) (some ⟨[], false⟩)
        ([⟨⟨1, 1/2, 1/2, 0, 0, false⟩,
           [⟨[1], some ⟨[1], false⟩, none⟩, ⟨[2], some ⟨[1], true⟩, none⟩]⟩] :
          List (ParamGroup ℚ))).1 = .error .runtimeError ∧
    cntAt ([⟨⟨1, 1/2, 1/2, 0, 0, false⟩,
           [⟨[1], some ⟨[1], false⟩, none⟩, ⟨[2], some ⟨[1], true⟩, none⟩]⟩] :
          List (ParamGroup ℚ)) 0 0 = 0 ∧
    cntAt (Adam.step (fun x => x) (some ⟨[], false⟩)
        ([⟨⟨1, 1/2, 1/2, 0, 0, false⟩,
           [⟨[1], some ⟨[1], false⟩, none⟩, ⟨[2], some ⟨[1], true⟩, none⟩]⟩] :
          List (ParamGroup ℚ))).2 0 0 = 1 :=
  ⟨rfl, by decide, by decide⟩

/-- The gather loop does not change the moment estimates an entry observes
(for a fresh entry it creates exactly the zero moments the observation
already reads). -/
theorem momObs_gatherEntry {α : Type} [LinearOrderedField α] (a fi : Bool)
    (p : ParamEntry α) :
    ((gatherEntry a fi p).st.map (fun s => (s.exp_avg, s.exp_avg_sq))).getD
        (zerosLike (gatherEntry a fi p).value, zerosLike (gatherEntry a fi p).value) =
      (p.st.map (fun s => (s.exp_avg, s.exp_avg_sq))).getD
        (zerosLike p.value, zerosLike p.value) := by
  cases hg : p.grad <;> cases hst : p.st <;> simp [gatherEntry, lazyInit, hg, hst]

/-- C5 (amended): a sparse gradient in a group makes `Adam.step` raise the
not-implemented `RuntimeError` before `adam_step_py` runs, so no parameter
value and no moment estimate of the group is written; but the gather loop
has already processed the dense parameters positioned before the first
sparse one — creating their state records and, when the skip-signal is
unset, incrementing their step counts — while the sparse parameter and
everything after it are untouched. -/
theorem adam_sparse_amended {α : Type} [LinearOrderedField α] (sq : α → α)
    (f : FoundInf) (h : Hyper α) (pre : List (ParamEntry α)) (q : ParamEntry α)
    (post : List (ParamEntry α)) (hsh : f.shape = [])
    (hpre : ∀ r ∈ pre, isSparse r = false) (hq : isSparse q = true) :
    Adam.step sq (some f) [⟨h, pre ++ q :: post⟩] =
      (.error .runtimeError,
        [⟨h, pre.map (gatherEntry h.amsgrad f.value) ++ q :: post⟩]) ∧
    (∀ j, valAt (Adam.step sq (some f) [⟨h, pre ++ q :: post⟩]).2 0 j =
      valAt [(⟨h, pre ++ q :: post⟩ : ParamGroup α)] 0 j) ∧
    (∀ j, momAt (Adam.step sq (some f) [⟨h, pre ++ q :: post⟩]).2 0 j =
      momAt [(⟨h, pre ++ q :: post⟩ : ParamGroup α)] 0 j) := by
  have hstep : Adam.step sq (some f) [(⟨h, pre ++ q :: post⟩ : ParamGroup α)] =
      (.error .runtimeError,
        [⟨h, pre.map (gatherEntry h.amsgrad f.value) ++ q :: post⟩]) := by
    simp only [Adam.step]
    rw [if_neg (by simp [hsh])]
    simp only [stepGroups, stepGroup]
    rw [gather_sparse_split h.amsgrad f.value pre q post hpre hq]
  refine ⟨hstep, ?_, ?_⟩
  · intro j
    rw [hstep]
    simp only [valAt, entryAt, List.getElem?_cons_zero, Option.some_bind]
    rw [getElem?_map_append_cons]
    by_cases hj : j < pre.length
    · rw [if_pos hj, List.getElem?_append, if_pos hj]
      cases hpj : pre[j]? <;> simp [gatherEntry_value]
    · rw [if_neg hj]
  · intro j
    rw [hstep]
    simp only [momAt, entryAt, List.getElem?_cons_zero, Option.some_bind]
    rw [getElem?_map_append_cons]
    by_cases hj : j < pre.length
    · rw [if_pos hj, List.getElem?_append, if_pos hj]
      cases hpj : pre[j]? <;> simp [momObs_gatherEntry]
    · rw [if_neg hj]

/-- Witness for C5 (amended) at concrete inputs. -/
theorem adam_sparse_amended_witness :
    Adam.step (fun x => x) (some ⟨[], false⟩)
        [(⟨⟨1, 1/2, 1/2, 0, 0, false⟩,
          [⟨[5], some ⟨[2], false⟩, none⟩] ++ ⟨[6], some ⟨[2], true⟩, none⟩ :: []⟩ :
          ParamGroup ℚ)] =
      (.error .runtimeError,
        [⟨⟨1, 1/2, 1/2, 0, 0, false⟩,
          ([⟨[5], some ⟨[2], false⟩, none⟩] : List (ParamEntry ℚ)).map
              (gatherEntry false false) ++ ⟨[6], some ⟨[2], true⟩, none⟩ :: []⟩]) :=
  (adam_sparse_amended (fun x => x) ⟨[], false⟩ ⟨1, 1/2, 1/2, 0, 0, false⟩
    [⟨[5], some ⟨[2], false⟩, none⟩] ⟨[6], some ⟨[2], true⟩, none⟩ []
    rfl (by decide) (by decide)).1

/-- C8 counterexample: a call that raises (on a sparse gradient) can still
have mutated optimizer state — here the step count of the dense parameter
visited before the sparse one went from 7 to 8 — so "a step either
completes fully or raises before mutating state" fails. -/
theorem adam_step_not_atomic_counterexample :
    (Adam.step (fun x => x) (some ⟨[], false⟩)
        ([⟨⟨1, 1/2, 1/2, 0, 1, true⟩,
           [⟨[2], some ⟨[3], false⟩, some ⟨7, [1], [1], some [1]⟩⟩,
            ⟨[4], some ⟨[1], true⟩, none⟩]⟩] : List (ParamGroup ℚ))).1 =
      .error .runtimeError ∧
    (Adam.step (fun x => x) (some ⟨[], false⟩)
        ([⟨⟨1, 1/2, 1/2, 0, 1, true⟩,
           [⟨[2], some ⟨[3], false⟩, some ⟨7, [1], [1], some [1]⟩⟩,
            ⟨[4], some ⟨[1], true⟩, none⟩]⟩] : List (ParamGroup ℚ))).2 ≠
      ([⟨⟨1, 1/2, 1/2, 0, 1, true⟩,
           [⟨[2], some ⟨[3], false⟩, some ⟨7, [1], [1], some [1]⟩⟩,
            ⟨[4], some ⟨[1], true⟩, none⟩]⟩] : List (ParamGroup ℚ)) :=
  ⟨rfl, by
    intro heq
    have hcnt := congrArg (fun gs => cntAt gs 0 0) heq
    simp only [] at hcnt
    exact absurd hcnt (by decide)⟩

/-- C8 (amended): in the embedding, `Adam.step` acts on nothing but the
optimizer state it returns (the leftover `pdb.set_trace()` debugging hook of
`adam_step_py` aside); a call with a missing or non-scalar skip-signal
raises before any mutation, and a call on sparse-free state completes fully,
applying the gather phase and `adam_step_py` to every group; only a
sparse-gradient raise can leave the state partially mutated. -/
theorem adam_step_atomicity_amended {α : Type} [LinearOrderedField α]
    (sq : α → α) (gs : List (ParamGroup α)) :
    ((Adam.step sq none gs).1 = .error .attributeError ∧
      (Adam.step sq none gs).2 = gs) ∧
    (∀ f : FoundInf, f.shape.length ≠ 0 →
      Adam.step sq (some f) gs = (.error .valueError, gs)) ∧
    (∀ f : FoundInf, f.shape.length = 0 → noSparse gs = true →
      Adam.step sq (some f) gs = (.ok (), fullStep sq f.value gs)) := by
  refine ⟨⟨rfl, rfl⟩, ?_, ?_⟩
  · intro f hs
    simp only [Adam.step]
    rw [if_pos hs]
  · intro f hs hns
    simp only [Adam.step]
    rw [if_neg (by simp [hs])]
    exact stepGroups_ok_of_noSparse sq f.value gs hns

/-- Witness for C8 (amended): a sparse-free call completes fully. -/
theorem adam_step_atomicity_amended_witness :
    Adam.step (fun x => x) (some ⟨[], false⟩) demoGroups =
      (.ok (), fullStep (fun x => x) false demoGroups) :=
  (adam_step_atomicity_amended (fun x => x) demoGroups).2.2 ⟨[], false⟩ rfl (by decide)

/-- C1: for a dense gradient, with the skip-signal unset and the recorded
(post-increment) step count `t ≥ 1`, the per-parameter update computes
`m ← β1·m + (1−β1)·g` and `v ← β2·v + (1−β2)·g²` (with `g` first augmented
by `weight_decay · parameter` when the weight decay is nonzero), and then
`parameter ← parameter − (lr/(1−β1^t)) · m / (sqrt(chosen)/sqrt(1−β2^t) + eps)`
elementwise, where `chosen` is the updated running maximum of `v` when
amsgrad is enabled and `v` itself otherwise. -/
theorem adam_step_formula {α : Type} [LinearOrderedField α] (sq : α → α)
    (h : Hyper α) (t : Nat) (param grad m v : List α) (mx : Option (List α))
    (ht : 1 ≤ t) :
    adam_step_py_param sq h false t param grad m v mx =
      (let g := if h.weight_decay ≠ 0
          then List.zipWith (fun gg p => gg + h.weight_decay * p) grad param
          else grad
       let m' := List.zipWith (fun a b => h.beta1 * a + (1 - h.beta1) * b) m g
       let v' := List.zipWith (fun a b => h.beta2 * a + (1 - h.beta2) * (b * b)) v g
       let chosen := if h.amsgrad then List.zipWith max (mx.getD []) v' else v'
       let denom := chosen.map (fun c => sq c / sq (1 - h.beta2 ^ t) + h.eps)
       (zipWith3 (fun p a d => p - h.lr / (1 - h.beta1 ^ t) * (a / d)) param m' denom,
        m', v',
        if h.amsgrad then some (List.zipWith max (mx.getD []) v') else mx)) := by
  have ht' : t ≠ 0 := by omega
  by_cases hwd : h.weight_decay ≠ 0 <;> cases hams : h.amsgrad <;>
    simp only [adam_step_py_param, torchConj, torchMaximum, hams, hwd,
      Bool.false_eq_true, if_false, if_true, not_false_eq_true, ite_true,
      ite_false, ht', ne_eq, torchAdd, zipWith_mulScalar_left,
      torchAddcmul_mulScalar_self, denom_maps, torchAddcdiv_neg] <;>
    rfl

/-- Witness for C1 at a concrete input (amsgrad and weight decay on,
square root instantiated to the identity): the update formula evaluates to
`([1/2], [1], [2], some [2])`. -/
theorem adam_step_formula_witness :
    (1 : Nat) ≤ 1 ∧
    adam_step_py_param (fun x => x) (⟨1, 1/2, 1/2, 0, 1, true⟩ : Hyper ℚ) false 1
        [1] [1] [0] [0] (some [0]) = ([1/2], [1], [2], some [2]) :=
  ⟨le_refl 1, by
    rw [adam_step_formula (fun x => x) ⟨1, 1/2, 1/2, 0, 1, true⟩ 1 [1] [1] [0] [0]
      (some [0]) (le_refl 1)]
    norm_num [zipWith3, max_def]⟩

/-- C2 counterexample: in the spec's concrete scenario (parameter `1.0`,
gradient `0.1`, `lr = 1e-3`, `betas = (0.9, 0.999)`, `eps = 1e-8`, no weight
decay, no amsgrad, skip-signal unset), the very first step call does NOT
leave the parameter at `1.0`: the step count is incremented to 1 before
`adam_step_py` runs, so the `if step` guard passes and a real update is
applied (here with the square root instantiated to the identity). -/
theorem adam_first_step_moves_param :
    valAt (stepN (fun x => x) (some ⟨[], false⟩) 1 demoGroups) 0 0 ≠ some [1] := by
  simp only [stepN, Adam.step, stepGroups, stepGroup, gather, demoGroups, isSparse,
    gatherEntry, lazyInit, adam_step_py, adam_step_py_entry, adam_step_py_param,
    torchAdd, torchMulScalar, torchAddcmul, torchAddcdiv, torchMaximum, zerosLike,
    onesLike, torchConj, zipWith3, valAt, entryAt]
  unfold adam_step_py_entry
  simp only [adam_step_py_param, torchAdd, torchMulScalar, torchAddcmul, torchAddcdiv,
    torchMaximum, zerosLike, onesLike, torchConj, zipWith3]
  norm_num [zipWith3, Function.comp]

/-- C2 (amended): in the concrete scenario, the first step call with the
skip-signal unset sets the parameter's step count to 1 and applies a real
update — the parameter strictly decreases below `1.0` — and the second call
decreases it further.  (The guard no-op with step size 0 applies only while
the recorded step count is still 0, i.e. when the skip-signal was set on
every call so far; it never applies to a call with the skip-signal unset.)
The statement holds for every nonnegative interpretation of the square
root, which the real square root is. -/
theorem adam_first_steps_amended (sq : ℚ → ℚ) (hsq : ∀ x : ℚ, 0 ≤ sq x) :
    cntAt (stepN sq (some ⟨[], false⟩) 1 demoGroups) 0 0 = 1 ∧
    ((valAt (stepN sq (some ⟨[], false⟩) 1 demoGroups) 0 0).getD []).headD 0 < 1 ∧
    ((valAt (stepN sq (some ⟨[], false⟩) 2 demoGroups) 0 0).getD []).headD 0 <
      ((valAt (stepN sq (some ⟨[], false⟩) 1 demoGroups) 0 0).getD []).headD 0 := by
  refine ⟨?_, ?_, ?_⟩
  · norm_num [stepN, Adam.step, stepGroups, stepGroup, gather, demoGroups, isSparse,
      gatherEntry, lazyInit, adam_step_py, adam_step_py_entry, adam_step_py_param,
      torchAdd, torchMulScalar, torchAddcmul, torchAddcdiv, torchMaximum, zerosLike,
      onesLike, torchConj, zipWith3, cntAt, entryAt, entryCnt, Function.comp]
  · norm_num [stepN, Adam.step, stepGroups, stepGroup, gather, demoGroups, isSparse,
      gatherEntry, lazyInit, adam_step_py, adam_step_py_entry, adam_step_py_param,
      torchAdd, torchMulScalar, torchAddcmul, torchAddcdiv, torchMaximum, zerosLike,
      onesLike, torchConj, zipWith3, valAt, entryAt, Function.comp]
    exact add_pos_of_nonneg_of_pos (div_nonneg (hsq _) (hsq _)) (by norm_num)
  · norm_num [stepN, Adam.step, stepGroups, stepGroup, gather, demoGroups, isSparse,
      gatherEntry, lazyInit, adam_step_py, adam_step_py_entry, adam_step_py_param,
      torchAdd, torchMulScalar, torchAddcmul, torchAddcdiv, torchMaximum, zerosLike,
      onesLike, torchConj, zipWith3, valAt, entryAt, Function.comp]
    have hd2 : 0 < sq (1999/100000000) / sq (1999/1000000) + 1/100000000 :=
      add_pos_of_nonneg_of_pos (div_nonneg (hsq _) (hsq _)) (by norm_num)
    have hY : 0 < 1/190 *
        ((19:ℚ)/1000 / (sq (1999/100000000) / sq (1999/1000000) + 1/100000000)) :=
      mul_pos (by norm_num) (div_pos (by norm_num) hd2)
    linarith

/-- Witness for C2 (amended): the constant-one square root is nonnegative,
and the conclusion holds for it. -/
theorem adam_first_steps_amended_witness :
    (∀ x : ℚ, 0 ≤ (fun _ => (1 : ℚ)) x) ∧
    (cntAt (stepN (fun _ => (1 : ℚ)) (some ⟨[], false⟩) 1 demoGroups) 0 0 = 1 ∧
    ((valAt (stepN (fun _ => (1 : ℚ)) (some ⟨[], false⟩) 1 demoGroups) 0 0).getD
        []).headD 0 < 1 ∧
    ((valAt (stepN (fun _ => (1 : ℚ)) (some ⟨[], false⟩) 2 demoGroups) 0 0).getD
        []).headD 0 <
      ((valAt (stepN (fun _ => (1 : ℚ)) (some ⟨[], false⟩) 1 demoGroups) 0 0).getD
        []).headD 0) :=
  ⟨fun _ => zero_le_one,
   adam_first_steps_amended (fun _ => (1 : ℚ)) (fun _ => zero_le_one)⟩

/-! ### Structure of regex matches (launch_benchmarks.py) -/

theorem drop_length_takeWhile (p : Char → Bool) :
    ∀ s : List Char, s.drop (s.takeWhile p).length = s.dropWhile p
  | [] => rfl
  | c :: s => by
    by_cases hc : p c
    · simp [List.takeWhile_cons, List.dropWhile_cons, hc, drop_length_takeWhile p s]
    · simp [List.takeWhile_cons, List.dropWhile_cons, hc]

theorem fiveTok_consume :
    ∀ k : Nat, ∀ s m : List Char, fiveTok k s = some m → ∃ rest, s = m ++ rest := by
  intro k
  induction k using Nat.strong_induction_on with
  | _ k ih =>
    intro s m hm
    match k, hm with
    | 1, hm =>
      simp only [fiveTok] at hm
      by_cases ht : (s.takeWhile (fun c => ! isPySpace c)).isEmpty
      · rw [if_pos ht] at hm
        exact absurd hm (by simp)
      · rw [if_neg ht] at hm
        rcases hd : s.drop (s.takeWhile (fun c => ! isPySpace c)).length with _ | ⟨c, s₂⟩ <;>
          rw [hd] at hm
        · exact absurd hm (by simp)
        · by_cases hc : c = '\n'
          · subst hc
            simp only [Option.some.injEq] at hm
            refine ⟨s₂, ?_⟩
            rw [← hm]
            have := drop_length_takeWhile (fun c => ! isPySpace c) s
            rw [hd] at this
            have hsplit : s.takeWhile (fun c => ! isPySpace c) ++
                s.dropWhile (fun c => ! isPySpace c) = s :=
              List.takeWhile_append_dropWhile (fun c => ! isPySpace c) s
            conv_lhs => rw [← hsplit]
            rw [← this]
            simp
          · rcases hc' : c <;> simp [hc'] at hm hc <;> simp_all
    | (k' + 2), hm =>
      simp only [fiveTok] at hm
      by_cases ht : (s.takeWhile (fun c => ! isPySpace c)).isEmpty
      · rw [if_pos ht] at hm
        exact absurd hm (by simp)
      · rw [if_neg ht] at hm
        rcases hd : s.drop (s.takeWhile (fun c => ! isPySpace c)).length with _ | ⟨c, s₂⟩ <;>
          rw [hd] at hm
        · exact absurd hm (by simp)
        · by_cases hc : c = ' '
          · subst hc
            simp only [Option.map_eq_some'] at hm
            obtain ⟨m', hm', rfl⟩ := hm
            obtain ⟨rest, hrest⟩ := ih (k' + 1) (by omega) s₂ m' hm'
            refine ⟨rest, ?_⟩
            have := drop_length_takeWhile (fun c => ! isPySpace c) s
            rw [hd] at this
            have hsplit : s.takeWhile (fun c => ! isPySpace c) ++
                s.dropWhile (fun c => ! isPySpace c) = s :=
              List.takeWhile_append_dropWhile (fun c => ! isPySpace c) s
            conv_lhs => rw [← hsplit]
            rw [← this, hrest]
            simp
          · rcases hc' : c <;> simp [hc'] at hm hc <;> simp_all

theorem fiveTok_one_struct (s m : List Char) (hm : fiveTok 1 s = some m) :
    ∃ t, m = t ++ ['\n'] ∧ t ≠ [] ∧ ∀ c ∈ t, isPySpace c = false := by
  simp only [fiveTok] at hm
  by_cases ht : (s.takeWhile (fun c => ! isPySpace c)).isEmpty
  · rw [if_pos ht] at hm
    exact absurd hm (by simp)
  · rw [if_neg ht] at hm
    rcases hd : s.drop (s.takeWhile (fun c => ! isPySpace c)).length with _ | ⟨c, s₂⟩ <;>
      rw [hd] at hm
    · exact absurd hm (by simp)
    · by_cases hc : c = '\n'
      · subst hc
        simp only [Option.some.injEq] at hm
        refine ⟨s.takeWhile (fun c => ! isPySpace c), hm.symm, ?_, ?_⟩
        · simpa [List.isEmpty_iff] using ht
        · intro c hcm
          have := List.mem_takeWhile_imp hcm
          simpa using this
      · rcases hc' : c <;> simp [hc'] at hm hc <;> simp_all

theorem fiveTok_struct :
    ∀ k : Nat, ∀ s m : List Char, fiveTok (k + 2) s = some m →
      ∃ w t, m = w ++ ' ' :: (t ++ ['\n']) ∧ t ≠ [] ∧
        (∀ c ∈ t, isPySpace c = false) ∧ '\n' ∉ w := by
  intro k
  induction k with
  | zero =>
    intro s m hm
    simp only [fiveTok] at hm
    by_cases ht : (s.takeWhile (fun c => ! isPySpace c)).isEmpty
    · rw [if_pos ht] at hm
      exact absurd hm (by simp)
    · rw [if_neg ht] at hm
      rcases hd : s.drop (s.takeWhile (fun c => ! isPySpace c)).length with _ | ⟨c, s₂⟩ <;>
        rw [hd] at hm
      · exact absurd hm (by simp)
      · by_cases hc : c = ' '
        · subst hc
          simp only [Option.map_eq_some'] at hm
          obtain ⟨m1, hm1, rfl⟩ := hm
          obtain ⟨t, rfl, htne, htns⟩ := fiveTok_one_struct s₂ m1 hm1
          refine ⟨s.takeWhile (fun c => ! isPySpace c), t, rfl, htne, htns, ?_⟩
          intro hmem
          exact absurd (List.mem_takeWhile_imp hmem) (by decide)
        · rcases hc' : c <;> simp [hc'] at hm hc <;> simp_all
  | succ k ih =>
    intro s m hm
    simp only [fiveTok] at hm
    by_cases ht : (s.takeWhile (fun c => ! isPySpace c)).isEmpty
    · rw [if_pos ht] at hm
      exact absurd hm (by simp)
    · rw [if_neg ht] at hm
      rcases hd : s.drop (s.takeWhile (fun c => ! isPySpace c)).length with _ | ⟨c, s₂⟩ <;>
        rw [hd] at hm
      · exact absurd hm (by simp)
      · by_cases hc : c = ' '
        · subst hc
          simp only [Option.map_eq_some'] at hm
          obtain ⟨m', hm', rfl⟩ := hm
          obtain ⟨w', t, rfl, htne, htns, hw'⟩ := ih s₂ m' hm'
          refine ⟨s.takeWhile (fun c => ! isPySpace c) ++ ' ' :: w', t, by simp, htne,
            htns, ?_⟩
          intro hmem
          rcases List.mem_append.mp hmem with h | h
          · exact absurd (List.mem_takeWhile_imp h) (by decide)
          · rcases List.mem_cons.mp h with h | h
            · exact absurd h.symm (by decide)
            · exact hw' h
        · rcases hc' : c <;> simp [hc'] at hm hc <;> simp_all

theorem matchAt_struct (s m : List Char) (hm : matchAt s = some m) :
    ∃ w t, m = w ++ ' ' :: (t ++ ['\n']) ∧ t ≠ [] ∧
      (∀ c ∈ t, isPySpace c = false) ∧ '\n' ∉ w := by
  simp only [matchAt] at hm
  by_cases hp : resultsLit.isPrefixOf s
  · rw [if_pos hp] at hm
    simp only [Option.map_eq_some'] at hm
    obtain ⟨m5, hm5, rfl⟩ := hm
    obtain ⟨w, t, rfl, htne, htns, hw⟩ := fiveTok_struct 3 _ m5 hm5
    refine ⟨resultsLit ++ w, t, by simp, htne, htns, ?_⟩
    intro hmem
    rcases List.mem_append.mp hmem with h | h
    · exact absurd h (by decide)
    · exact hw h
  · rw [if_neg hp] at hm
    exact absurd hm (by simp)

theorem matchAt_consume (s m : List Char) (hm : matchAt s = some m) :
    ∃ rest, s = m ++ rest := by
  simp only [matchAt] at hm
  by_cases hp : resultsLit.isPrefixOf s
  · rw [if_pos hp] at hm
    simp only [Option.map_eq_some'] at hm
    obtain ⟨m5, hm5, rfl⟩ := hm
    obtain ⟨rest0, hs⟩ := List.isPrefixOf_iff_prefix.mp hp
    obtain ⟨rest, hrest⟩ := fiveTok_consume 5 _ m5 hm5
    have hdrop : s.drop resultsLit.length = rest0 := by
      rw [← hs]
      exact List.drop_left _ _
    rw [hdrop] at hrest
    refine ⟨rest, ?_⟩
    rw [← hs, hrest]
    simp
  · rw [if_neg hp] at hm
    exact absurd hm (by simp)

theorem reSearchPos_consume :
    ∀ (s b m : List Char), reSearchPos s = some (b, m) →
      ∃ rest, s = b ++ m ++ rest ∧ matchAt (m ++ rest) = some m := by
  intro s
  induction s with
  | nil =>
    intro b m h
    exact absurd h (by simp [reSearchPos])
  | cons c s ih =>
    intro b m h
    simp only [reSearchPos] at h
    cases hma : matchAt (c :: s) with
    | some m0 =>
      rw [hma] at h
      simp only [Option.some.injEq, Prod.mk.injEq] at h
      obtain ⟨hb, hm⟩ := h
      obtain ⟨rest, hrest⟩ := matchAt_consume _ _ hma
      subst hb
      subst hm
      exact ⟨rest, by simpa using hrest, by rw [← hrest]; exact hma⟩
    | none =>
      rw [hma] at h
      simp only [Option.map_eq_some'] at h
      obtain ⟨⟨b', m'⟩, hbm, heq⟩ := h
      simp only [Prod.mk.injEq] at heq
      obtain ⟨hb, hm⟩ := heq
      obtain ⟨rest, hrest, hmt⟩ := ih b' m' hbm
      subst hm
      refine ⟨rest, ?_, hmt⟩
      rw [← hb, hrest]
      rfl

theorem reSearchPos_newline (s b m : List Char) (h : reSearchPos s = some (b, m)) :
    '\n' ∈ s := by
  obtain ⟨rest, hs, hmt⟩ := reSearchPos_consume s b m h
  obtain ⟨w, t, hm, _, _, _⟩ := matchAt_struct _ _ hmt
  rw [hs, hm]
  simp

theorem splitSp_ne_nil : ∀ s : List Char, splitSp s ≠ [] := by
  intro s
  induction s with
  | nil => simp [splitSp]
  | cons c s ih =>
    by_cases hc : c = ' '
    · simp [splitSp, hc]
    · simp only [splitSp]
      rw [if_neg hc]
      cases h : splitSp s <;> simp

theorem splitSp_no_space : ∀ w : List Char, ' ' ∉ w → splitSp w = [w] := by
  intro w
  induction w with
  | nil => intro _; rfl
  | cons c w ih =>
    intro hmem
    have hc : ¬ c = ' ' := fun h => hmem (by simp [h])
    have hw : ' ' ∉ w := fun h => hmem (by simp [h])
    simp only [splitSp]
    rw [if_neg hc, ih hw]

theorem getLastD_indep {γ : Type} (l : List γ) (a b : γ) (h : l ≠ []) :
    l.getLastD a = l.getLastD b := by
  cases l with
  | nil => exact absurd rfl h
  | cons x xs => rfl

theorem two_le_splitSp : ∀ u w : List Char, 2 ≤ (splitSp (u ++ ' ' :: w)).length := by
  intro u
  induction u with
  | nil =>
    intro w
    have h1 := List.length_pos.mpr (splitSp_ne_nil w)
    show 2 ≤ (splitSp (' ' :: w)).length
    simp only [splitSp, if_true]
    simp only [List.length_cons]
    omega
  | cons c u ih =>
    intro w
    by_cases hc : c = ' '
    · subst hc
      have h1 := List.length_pos.mpr (splitSp_ne_nil (u ++ ' ' :: w))
      simp only [List.cons_append, splitSp, if_true]
      simp only [List.length_cons, List.append_eq]
      omega
    · simp only [List.cons_append, splitSp]
      rw [if_neg hc]
      cases h : splitSp (u ++ ' ' :: w) with
      | nil => exact absurd h (splitSp_ne_nil _)
      | cons t r =>
        have h2 := ih w
        rw [h] at h2
        simpa using h2

theorem getLastD_splitSp : ∀ u w : List Char, ' ' ∉ w →
    (splitSp (u ++ ' ' :: w)).getLastD [] = w := by
  intro u
  induction u with
  | nil =>
    intro w hw
    show (splitSp (' ' :: w)).getLastD [] = w
    simp only [splitSp, if_true]
    rw [splitSp_no_space w hw]
    simp [List.getLastD_cons]
  | cons c u ih =>
    intro w hw
    by_cases hc : c = ' '
    · subst hc
      show (splitSp (' ' :: (u ++ ' ' :: w))).getLastD [] = w
      simp only [splitSp, if_true, List.append_eq]
      rw [List.getLastD_cons]
      exact ih w hw
    · show (splitSp (c :: (u ++ ' ' :: w))).getLastD [] = w
      simp only [splitSp]
      rw [if_neg hc]
      cases h : splitSp (u ++ ' ' :: w) with
      | nil => exact absurd h (splitSp_ne_nil _)
      | cons t r =>
        have h2 := two_le_splitSp u w
        rw [h] at h2
        have hr : r ≠ [] := by
          intro hr0
          rw [hr0] at h2
          simp at h2
        have ihw := ih w hw
        rw [h, List.getLastD_cons] at ihw
        calc ((c :: t) :: r).getLastD [] = r.getLastD (c :: t) :=
            List.getLastD_cons _ _ _
          _ = r.getLastD t := getLastD_indep r _ _ hr
          _ = w := ihw

theorem pyStrip_token (t : List Char) (htne : t ≠ [])
    (htns : ∀ c ∈ t, isPySpace c = false) :
    pyStrip (t ++ ['\n']) = t := by
  simp only [pyStrip]
  have h1 : (t ++ ['\n']).dropWhile isPySpace = t ++ ['\n'] := by
    cases t with
    | nil => exact absurd rfl htne
    | cons c t' =>
      have := htns c (by simp)
      simp [List.dropWhile_cons, this]
  rw [h1]
  have h2 : (t ++ ['\n']).reverse = '\n' :: t.reverse := by simp
  rw [h2]
  have hnl : isPySpace '\n' = true := by decide
  have h3 : ('\n' :: t.reverse).dropWhile isPySpace = t.reverse.dropWhile isPySpace := by
    simp [List.dropWhile_cons, hnl]
  rw [h3]
  cases htr : t.reverse with
  | nil =>
    exact absurd (by simpa using congrArg List.reverse htr) htne
  | cons d tr =>
    have hd : isPySpace d = false := by
      refine htns d ?_
      rw [← List.mem_reverse, htr]
      simp
    simp only [List.dropWhile_cons, hd, Bool.false_eq_true, if_false]
    rw [← htr]
    simp

theorem wsSplitAux_all_nonspace :
    ∀ (t cur : List Char), t ≠ [] → (∀ c ∈ t, isPySpace c = false) →
      wsSplitAux cur t = [cur.reverse ++ t] := by
  intro t
  induction t with
  | nil =>
    intro cur h _
    exact absurd rfl h
  | cons c t ih =>
    intro cur _ hns
    have hc : isPySpace c = false := hns c (by simp)
    simp only [wsSplitAux, hc, Bool.false_eq_true, if_false]
    cases t with
    | nil => simp [wsSplitAux]
    | cons d t' =>
      rw [ih (c :: cur) (by simp) (fun x hx => hns x (by simp [hx]))]
      simp

theorem wsSplitAux_last :
    ∀ (A cur t : List Char), t ≠ [] → (∀ c ∈ t, isPySpace c = false) →
      (wsSplitAux cur (A ++ ' ' :: t)).getLastD [] = t := by
  intro A
  induction A with
  | nil =>
    intro cur t htne htns
    show (wsSplitAux cur (' ' :: t)).getLastD [] = t
    have hsp : isPySpace ' ' = true := by decide
    simp only [wsSplitAux, hsp, if_true]
    rw [wsSplitAux_all_nonspace t [] htne htns]
    by_cases hcur : cur.isEmpty
    · rw [if_pos hcur]
      simp
    · rw [if_neg hcur]
      simp [List.getLastD_cons]
  | cons a A ih =>
    intro cur t htne htns
    show (wsSplitAux cur (a :: (A ++ ' ' :: t))).getLastD [] = t
    simp only [wsSplitAux]
    by_cases ha : isPySpace a = true
    · rw [if_pos ha]
      by_cases hcur : cur.isEmpty
      · rw [if_pos hcur]
        exact ih [] t htne htns
      · rw [if_neg hcur]
        have ihv := ih [] t htne htns
        have hne : wsSplitAux [] (A ++ ' ' :: t) ≠ [] := by
          intro h0
          rw [h0] at ihv
          exact htne (by simpa using ihv.symm)
        calc (cur.reverse :: wsSplitAux [] (A ++ ' ' :: t)).getLastD []
            = (wsSplitAux [] (A ++ ' ' :: t)).getLastD cur.reverse :=
            List.getLastD_cons _ _ _
          _ = (wsSplitAux [] (A ++ ' ' :: t)).getLastD [] := getLastD_indep _ _ _ hne
          _ = t := ihv
    · rw [if_neg ha]
      exact ih (a :: cur) t htne htns

theorem lastTok_append_token (A t : List Char) (htne : t ≠ [])
    (htns : ∀ c ∈ t, isPySpace c = false) :
    lastTok (A ++ ' ' :: t) = t :=
  wsSplitAux_last A [] t htne htns

theorem isPrefixOf_newline_tail :
    ∀ (p x r : List Char), '\n' ∉ p → '\n' ∉ x →
      p.isPrefixOf (x ++ '\n' :: r) = p.isPrefixOf (x ++ ['\n']) := by
  intro p
  induction p with
  | nil =>
    intro x r _ _
    cases x <;> rfl
  | cons a p ih =>
    intro x r hp hx
    cases x with
    | nil =>
      have ha : (a == '\n') = false := by
        simp only [beq_eq_false_iff_ne]
        intro h
        exact hp (by simp [h])
      show ((a :: p).isPrefixOf ('\n' :: r)) = ((a :: p).isPrefixOf ['\n'])
      simp [List.isPrefixOf, ha]
    | cons b x' =>
      show ((a :: p).isPrefixOf (b :: (x' ++ '\n' :: r))) =
        ((a :: p).isPrefixOf (b :: (x' ++ ['\n'])))
      simp only [List.isPrefixOf]
      rw [ih x' r (fun h => hp (by simp [h])) (fun h => hx (by simp [h]))]

theorem takeWhile_stop :
    ∀ (x : List Char) (y0 : Char) (yr : List Char), isPySpace y0 = true →
      (x ++ y0 :: yr).takeWhile (fun c => ! isPySpace c) =
        x.takeWhile (fun c => ! isPySpace c) := by
  intro x
  induction x with
  | nil =>
    intro y0 yr h
    simp [List.takeWhile_cons, h]
  | cons c x ih =>
    intro y0 yr h
    by_cases hc : isPySpace c
    · simp [List.takeWhile_cons, hc]
    · simp [List.takeWhile_cons, hc, ih y0 yr h]


theorem length_takeWhile_le' (p : Char → Bool) :
    ∀ l : List Char, (l.takeWhile p).length ≤ l.length := by
  intro l
  induction l with
  | nil => exact le_refl _
  | cons c l ih =>
    by_cases hc : p c
    · simp only [List.takeWhile_cons, hc, if_true, List.length_cons]
      omega
    · simp [List.takeWhile_cons, hc]

theorem fiveTok_newline_tail :
    ∀ (n k : Nat) (x r : List Char), x.length ≤ n → '\n' ∉ x →
      fiveTok k (x ++ '\n' :: r) = fiveTok k (x ++ ['\n']) := by
  intro n
  induction n with
  | zero =>
    intro k x r hlen hx
    have hx0 : x = [] := List.length_eq_zero.mp (Nat.le_zero.mp hlen)
    subst hx0
    have h1 : (('\n' : Char) :: r).takeWhile (fun c => ! isPySpace c) = [] := by
      simp [List.takeWhile_cons, show isPySpace '\n' = true from by decide]
    have h2 : (['\n'] : List Char).takeWhile (fun c => ! isPySpace c) = [] := by
      simp [List.takeWhile_cons, show isPySpace '\n' = true from by decide]
    match k with
    | 0 => rfl
    | 1 => simp [fiveTok, h1, h2]
    | (k' + 2) => simp [fiveTok, h1, h2]
  | succ n ih =>
    intro k x r hlen hx
    have htw1 : (x ++ '\n' :: r).takeWhile (fun c => ! isPySpace c) =
        x.takeWhile (fun c => ! isPySpace c) :=
      takeWhile_stop x '\n' r (by decide)
    have htw2 : (x ++ ['\n']).takeWhile (fun c => ! isPySpace c) =
        x.takeWhile (fun c => ! isPySpace c) :=
      takeWhile_stop x '\n' [] (by decide)
    have hd1 : (x ++ '\n' :: r).drop ((x.takeWhile (fun c => ! isPySpace c)).length) =
        x.dropWhile (fun c => ! isPySpace c) ++ '\n' :: r := by
      rw [List.drop_append_of_le_length (length_takeWhile_le' _ x),
        drop_length_takeWhile]
    have hd2 : (x ++ ['\n']).drop ((x.takeWhile (fun c => ! isPySpace c)).length) =
        x.dropWhile (fun c => ! isPySpace c) ++ ['\n'] := by
      rw [List.drop_append_of_le_length (length_takeWhile_le' _ x),
        drop_length_takeWhile]
    match k with
    | 0 => rfl
    | 1 =>
      simp only [fiveTok, htw1, htw2]
      by_cases ht : (x.takeWhile (fun c => ! isPySpace c)).isEmpty
      · rw [if_pos ht, if_pos ht]
      · rw [if_neg ht, if_neg ht, hd1, hd2]
        cases hx2 : x.dropWhile (fun c => ! isPySpace c) with
        | nil => rfl
        | cons d x₃ =>
          have hmemd : d ∈ x :=
            List.Sublist.mem (by rw [hx2]; exact List.mem_cons_self d x₃)
              (List.dropWhile_sublist _)
          have hd : d ≠ '\n' := fun h => hx (h ▸ hmemd)
          simp only [List.cons_append]
          split <;> split <;> simp_all
    | (k' + 2) =>
      simp only [fiveTok, htw1, htw2]
      by_cases ht : (x.takeWhile (fun c => ! isPySpace c)).isEmpty
      · rw [if_pos ht, if_pos ht]
      · rw [if_neg ht, if_neg ht, hd1, hd2]
        cases hx2 : x.dropWhile (fun c => ! isPySpace c) with
        | nil => rfl
        | cons d x₃ =>
          have hx₃ : '\n' ∉ x₃ := fun hmem =>
            hx (List.Sublist.mem (by rw [hx2]; simp [hmem]) (List.dropWhile_sublist _))
          have hlen₃ : x₃.length ≤ n := by
            have h1 : (x.dropWhile (fun c => ! isPySpace c)).length ≤ x.length :=
              List.Sublist.length_le (List.dropWhile_sublist (fun c => ! isPySpace c))
            rw [hx2] at h1
            simp only [List.length_cons] at h1
            omega
          simp only [List.cons_append]
          by_cases hdsp : d = ' '
          · subst hdsp
            show Option.map
                (fun m => x.takeWhile (fun c => ! isPySpace c) ++ ' ' :: m)
                (fiveTok (k' + 1) (x₃ ++ '\n' :: r)) =
              Option.map
                (fun m => x.takeWhile (fun c => ! isPySpace c) ++ ' ' :: m)
                (fiveTok (k' + 1) (x₃ ++ ['\n']))
            rw [ih (k' + 1) x₃ r hlen₃ hx₃]
          · split <;> split <;> simp_all

theorem matchAt_newline_tail (x r : List Char) (hx : '\n' ∉ x) :
    matchAt (x ++ '\n' :: r) = matchAt (x ++ ['\n']) := by
  simp only [matchAt]
  rw [isPrefixOf_newline_tail resultsLit x r (by decide) hx]
  by_cases hp : resultsLit.isPrefixOf (x ++ ['\n']) = true
  · rw [if_pos hp, if_pos hp]
    have h9 : resultsLit.length ≤ x.length := by
      by_contra hlt
      push_neg at hlt
      obtain ⟨rest0, hs⟩ := List.isPrefixOf_iff_prefix.mp hp
      have e1 : (x ++ ['\n'])[x.length]? = some '\n' := by
        rw [List.getElem?_append_right (le_refl _)]
        simp
      rw [← hs] at e1
      rw [List.getElem?_append, if_pos hlt] at e1
      exact absurd (List.getElem?_mem e1) (by decide)
    have hd1 : (x ++ '\n' :: r).drop resultsLit.length =
        x.drop resultsLit.length ++ '\n' :: r :=
      List.drop_append_of_le_length h9
    have hd2 : (x ++ ['\n']).drop resultsLit.length =
        x.drop resultsLit.length ++ ['\n'] :=
      List.drop_append_of_le_length h9
    rw [hd1, hd2, fiveTok_newline_tail (x.drop resultsLit.length).length 5 _ r
      (le_refl _) (fun h => hx (List.mem_of_mem_drop h))]
  · rw [if_neg hp, if_neg hp]

theorem reSearchPos_newline_tail :
    ∀ (l rest : List Char), '\n' ∉ l →
      (∀ b m, reSearchPos (l ++ ['\n']) = some (b, m) →
          reSearchPos (l ++ '\n' :: rest) = some (b, m)) ∧
      (reSearchPos (l ++ ['\n']) = none →
          reSearchPos (l ++ '\n' :: rest) =
            (reSearchPos rest).map (fun p => (l ++ '\n' :: p.1, p.2))) := by
  intro l
  induction l with
  | nil =>
    intro rest _
    constructor
    · intro b m h
      have hnone : reSearchPos (([] : List Char) ++ ['\n']) = none := by decide
      rw [hnone] at h
      exact absurd h (by simp)
    · intro _
      show reSearchPos ('\n' :: rest) = _
      simp only [reSearchPos]
      have hRn : (('R' : Char) == '\n') = false := by decide
      have hpre : ¬ resultsLit.isPrefixOf ('\n' :: rest) = true := by
        have hlit : resultsLit = 'R' :: ['e','s','u','l','t','s',':',' '] := rfl
        rw [hlit]
        simp [List.isPrefixOf, hRn]
      have hma : matchAt ('\n' :: rest) = none := by
        simp only [matchAt]
        rw [if_neg hpre]
      rw [hma]
      simp
  | cons c l ih =>
    intro rest hx
    have hxl : '\n' ∉ l := fun h => hx (by simp [h])
    have hma : matchAt (c :: (l ++ '\n' :: rest)) = matchAt (c :: (l ++ ['\n'])) := by
      have h0 := matchAt_newline_tail (c :: l) rest hx
      simpa [List.cons_append] using h0
    constructor
    · intro b m h
      have h' : reSearchPos (c :: (l ++ ['\n'])) = some (b, m) := by simpa using h
      show reSearchPos (c :: (l ++ '\n' :: rest)) = some (b, m)
      simp only [reSearchPos] at h' ⊢
      cases hmac : matchAt (c :: (l ++ ['\n'])) with
      | some m0 =>
        rw [hmac] at h'
        rw [hma, hmac]
        simpa using h'
      | none =>
        rw [hmac] at h'
        rw [hma, hmac]
        simp only [Option.map_eq_some'] at h'
        obtain ⟨⟨b', m'⟩, hbm', heq⟩ := h'
        have hrec := (ih rest hxl).1 b' m' hbm'
        simp only [Option.map_eq_some']
        exact ⟨(b', m'), hrec, heq⟩
    · intro h
      have h' : reSearchPos (c :: (l ++ ['\n'])) = none := by simpa using h
      show reSearchPos (c :: (l ++ '\n' :: rest)) = _
      simp only [reSearchPos] at h' ⊢
      cases hmac : matchAt (c :: (l ++ ['\n'])) with
      | some m0 =>
        rw [hmac] at h'
        simp at h'
      | none =>
        rw [hmac] at h'
        have hnone : reSearchPos (l ++ ['\n']) = none := by
          cases hh : reSearchPos (l ++ ['\n']) with
          | none => rfl
          | some p =>
            rw [hh] at h'
            simp at h'
        rw [hma, hmac]
        have hrec := (ih rest hxl).2 hnone
        rw [hrec]
        cases hr : reSearchPos rest <;> simp

theorem split_first_newline :
    ∀ s : List Char, '\n' ∈ s → ∃ l rest, s = l ++ '\n' :: rest ∧ '\n' ∉ l := by
  intro s
  induction s with
  | nil => intro h; simp at h
  | cons c s ih =>
    intro h
    by_cases hc : c = '\n'
    · subst hc
      exact ⟨[], s, rfl, by simp⟩
    · have hs : '\n' ∈ s := by
        rcases List.mem_cons.mp h with h1 | h1
        · exact absurd h1.symm hc
        · exact h1
      obtain ⟨l, rest, hrw, hl⟩ := ih hs
      refine ⟨c :: l, rest, by rw [hrw]; rfl, ?_⟩
      intro hmem
      rcases List.mem_cons.mp hmem with h1 | h1
      · exact hc h1.symm
      · exact hl h1

theorem linesTerm_no_newline : ∀ s : List Char, '\n' ∉ s → linesTerm s = [] := by
  intro s
  induction s with
  | nil => intro _; rfl
  | cons c s ih =>
    intro h
    have hc : ¬ c = '\n' := fun hc => h (by rw [hc]; exact List.mem_cons_self _ _)
    have hs : '\n' ∉ s := fun hm => h (List.mem_cons_of_mem _ hm)
    simp only [linesTerm]
    rw [if_neg hc, ih hs]

theorem linesTerm_cons :
    ∀ (l rest : List Char), '\n' ∉ l →
      linesTerm (l ++ '\n' :: rest) = l :: linesTerm rest := by
  intro l
  induction l with
  | nil =>
    intro rest _
    show linesTerm ('\n' :: rest) = [] :: linesTerm rest
    simp [linesTerm]
  | cons c l ih =>
    intro rest h
    have hc : ¬ c = '\n' := fun hc => h (by rw [hc]; exact List.mem_cons_self _ _)
    have hl : '\n' ∉ l := fun hm => h (List.mem_cons_of_mem _ hm)
    show linesTerm (c :: (l ++ '\n' :: rest)) = (c :: l) :: linesTerm rest
    simp only [linesTerm]
    rw [if_neg hc, ih rest hl]

theorem line_match_token (l b m : List Char) (hl : '\n' ∉ l)
    (h : reSearchPos (l ++ ['\n']) = some (b, m)) :
    pyStrip ((splitSp m).getLastD []) = lastTok l := by
  obtain ⟨rest', hs, hmt⟩ := reSearchPos_consume _ b m h
  obtain ⟨w, t, hm, htne, htns, hw⟩ := matchAt_struct _ _ hmt
  have hmem_m : '\n' ∈ m := by rw [hm]; simp
  have hcount : (l ++ ['\n']).count '\n' = 1 := by
    simp [List.count_append, List.count_eq_zero.mpr hl]
  have hrest : rest' = [] := by
    by_contra hne
    have h1 : (l ++ ['\n']).getLast? = some '\n' := by simp
    have h2 : rest'.getLast? = some '\n' := by
      rw [hs, List.getLast?_append_of_ne_nil _ hne] at h1
      exact h1
    have hmemr : '\n' ∈ rest' := List.mem_of_getLast?_eq_some h2
    have hc2 : 2 ≤ (l ++ ['\n']).count '\n' := by
      rw [hs, List.count_append, List.count_append]
      have hm1 : 0 < m.count '\n' := List.count_pos_iff.mpr hmem_m
      have hr1 : 0 < rest'.count '\n' := List.count_pos_iff.mpr hmemr
      omega
    omega
  subst hrest
  rw [List.append_nil] at hs
  have hmd : m = (w ++ ' ' :: t) ++ ['\n'] := by rw [hm]; simp
  have hleq : l = b ++ (w ++ ' ' :: t) := by
    have h3 : l ++ ['\n'] = (b ++ (w ++ ' ' :: t)) ++ ['\n'] := by
      rw [hs, hmd]
      simp [List.append_assoc]
    exact List.append_cancel_right h3
  have hspt : ' ' ∉ t ++ ['\n'] := by
    intro hmem
    rcases List.mem_append.mp hmem with h1 | h1
    · exact absurd (htns ' ' h1) (by decide)
    · simp at h1
  rw [hm, getLastD_splitSp w (t ++ ['\n']) hspt, pyStrip_token t htne htns, hleq]
  have hassoc : b ++ (w ++ ' ' :: t) = (b ++ w) ++ ' ' :: t := by
    simp [List.append_assoc]
  rw [hassoc, lastTok_append_token (b ++ w) t htne htns]

theorem latency_lines_aux :
    ∀ (n : Nat) (out : List Char), out.length ≤ n →
      latencyOf out =
        (match (linesTerm out).find? lineHasFive with
         | some l => lastTok l
         | none => "N/A".data) := by
  intro n
  induction n with
  | zero =>
    intro out hlen
    have hout : out = [] := List.length_eq_zero.mp (Nat.le_zero.mp hlen)
    subst hout
    rfl
  | succ n ih =>
    intro out hlen
    by_cases hnl : '\n' ∈ out
    · obtain ⟨l, rest, rfl, hl⟩ := split_first_newline out hnl
      rw [linesTerm_cons l rest hl]
      by_cases hfive : lineHasFive l
      · rw [List.find?_cons_of_pos _ hfive]
        show latencyOf (l ++ '\n' :: rest) = lastTok l
        have hfive' : (reSearchPos (l ++ ['\n'])).isSome := by
          simpa [lineHasFive] using hfive
        obtain ⟨⟨b, m⟩, hbm⟩ := Option.isSome_iff_exists.mp hfive'
        have hsame := (reSearchPos_newline_tail l rest hl).1 b m hbm
        unfold latencyOf
        rw [hsame]
        exact line_match_token l b m hl hbm
      · rw [List.find?_cons_of_neg _ hfive]
        have hnone : reSearchPos (l ++ ['\n']) = none := by
          cases hcase : reSearchPos (l ++ ['\n']) with
          | none => rfl
          | some p =>
            refine absurd ?_ hfive
            simp [lineHasFive, hcase]
        have hdef := (reSearchPos_newline_tail l rest hl).2 hnone
        have hlat : latencyOf (l ++ '\n' :: rest) = latencyOf rest := by
          unfold latencyOf
          rw [hdef]
          cases reSearchPos rest with
          | none => rfl
          | some p => rfl
        rw [hlat]
        apply ih
        have hlen2 := hlen
        simp [List.length_append] at hlen2
        omega
    · have hnone : reSearchPos out = none := by
        cases hcase : reSearchPos out with
        | none => rfl
        | some p =>
          obtain ⟨b, m⟩ := p
          exact absurd (reSearchPos_newline out b m hcase) hnl
      rw [linesTerm_no_newline out hnl]
      unfold latencyOf
      rw [hnone]
      rfl

/-- C9: For each captured benchmark output, if some newline-terminated line
matches the five-token "Results:" pattern, the reported latency is the first
such line's last whitespace-delimited token (the stripped last
space-separated piece of the regex match); if no line matches, the reported
latency is the sentinel string "N/A" — the scrape is a total function and
never fails the sweep. -/
theorem benchmark_latency (out : List Char) :
    latencyOf out =
      (match (linesTerm out).find? lineHasFive with
       | some l => lastTok l
       | none => "N/A".data) :=
  latency_lines_aux out.length out (Nat.le_refl _)
